import Mathlib

/-!
# ImageViewer (sqlitebrowser): gamma correction, slider, scroll bars and panning

A shallow embedding of `src/ImageViewer.cpp` / `src/ImageViewer.h`.

* C++ `int` is `Int`; an operation whose mathematical result leaves the
  32-bit range has undefined behaviour and is reported as `none`.
* C++ `double` is `Dbl`, a finite IEEE-754 binary64 value `m * 2 ^ e`, with
  round-to-nearest-even after every operation.  Infinities and NaN are
  absorbing for every operation the widget performs and each double the widget
  computes ends in a `static_cast<int>`, which is undefined for them; a
  non-finite intermediate is therefore reported as `none`, like the cast.
  The sign of zero is not tracked (nothing here observes it).
* `qPow` is the C library's `pow`; it is not part of the repository and is
  taken as a parameter `qPow : Dbl → Dbl → Option Dbl`.
* A `QImage` carries its `QImage::Format`.  The formats covered are the 32-bit
  ones (`Format_RGB32`, `Format_ARGB32`, `Format_ARGB32_Premultiplied`), whose
  pixels are `QRgb` values, and the palettised ones (`Format_Mono`,
  `Format_MonoLSB`, `Format_Indexed8`), whose pixels are indices into the colour
  table: for these `setPixel` takes an index and ignores one outside the table.
  The 16-, 24-, 30- and 64-bit, grayscale and alpha-only formats, which `pixel` /
  `setPixel` convert with loss, are not covered, and nothing is stated about them.
* The Qt widgets are records of the properties the code reads and writes.  Every
  `setValue` / `setChecked` of the code runs with signals blocked, so no slot is
  re-entered.  How the scroll area lays a resized label out again (new scroll bar
  ranges and page steps) is toolkit behaviour outside the source and is not modelled.
-/

/-! ## IEEE-754 binary64 -/

/-- A finite binary64 value `m * 2 ^ e`.  Canonical values have
`|m| < 2 ^ 53`, `-1074 ≤ e ≤ 971`, and `e = -1074` when `|m| < 2 ^ 52`. -/
structure Dbl where
  m : Int
  e : Int
deriving DecidableEq

/-- Number of binary digits of `n`, with `fuel` many halvings allowed. -/
def bitLenAux : Nat → Nat → Nat
  | 0, _ => 0
  | fuel + 1, n => if n = 0 then 0 else bitLenAux fuel (n / 2) + 1

/-- Number of binary digits of `n` (`0` for `0`). -/
def bitLen (n : Nat) : Nat := bitLenAux n n

/-- The integer `l` with `2 ^ l ≤ n / d < 2 ^ (l + 1)`, for positive `n`, `d`. -/
def ilog2 (n d : Nat) : Int :=
  let e0 : Int := (bitLen n : Int) - (bitLen d : Int)
  if d * 2 ^ e0.toNat ≤ n * 2 ^ (-e0).toNat then e0 else e0 - 1

/-- The quotient `a / b` rounded to the nearest natural number, ties to even. -/
def rne (a b : Nat) : Nat :=
  let q := a / b
  let r := a % b
  if 2 * r < b then q else if b < 2 * r then q + 1 else if q % 2 = 0 then q else q + 1

/-- The binary64 value nearest to `num / den` (ties to even, gradual underflow);
`none` when the rounded value exceeds the largest finite double. -/
def Dbl.round (num : Int) (den : Nat) : Option Dbl :=
  if num = 0 then some ⟨0, -1074⟩ else
  let n := num.natAbs
  let e : Int := max (ilog2 n den - 52) (-1074)
  let q := rne (n * 2 ^ (-e).toNat) (den * 2 ^ e.toNat)
  let m1 : Nat := if q = 2 ^ 53 then 2 ^ 52 else q
  let e1 : Int := if q = 2 ^ 53 then e + 1 else e
  if 971 < e1 then none else some ⟨Int.sign num * m1, e1⟩

/-- The binary64 value nearest to `num / den * 2 ^ ex`. -/
def Dbl.ofExact (num : Int) (den : Nat) (ex : Int) : Option Dbl :=
  Dbl.round (num * ((2 ^ ex.toNat : Nat) : Int)) (den * 2 ^ (-ex).toNat)

/-- Conversion `int → double`; exact, since an `int` has at most 32 digits. -/
def Dbl.ofInt (i : Int) : Dbl :=
  if i = 0 then ⟨0, -1074⟩ else
  ⟨i * ((2 ^ (53 - bitLen i.natAbs) : Nat) : Int), -((53 - bitLen i.natAbs : Nat) : Int)⟩

/-- Product `a * b` of doubles. -/
def Dbl.mul (a b : Dbl) : Option Dbl := Dbl.ofExact (a.m * b.m) 1 (a.e + b.e)

/-- Quotient `a / b` of doubles; a zero divisor gives an infinity or NaN. -/
def Dbl.div (a b : Dbl) : Option Dbl :=
  if b.m = 0 then none else Dbl.ofExact (Int.sign b.m * a.m) b.m.natAbs (a.e - b.e)

/-- Sum `a + b` of doubles. -/
def Dbl.add (a b : Dbl) : Option Dbl :=
  let e := min a.e b.e
  Dbl.ofExact
    (a.m * ((2 ^ (a.e - e).toNat : Nat) : Int) + b.m * ((2 ^ (b.e - e).toNat : Nat) : Int)) 1 e

/-- Difference `a - b` of doubles. -/
def Dbl.sub (a b : Dbl) : Option Dbl := Dbl.add a ⟨-b.m, b.e⟩

/-- The comparison `0.0 ≤ a`. -/
def Dbl.nonneg (a : Dbl) : Bool := decide (0 ≤ a.m)

/-- The rational number a double stands for. -/
def Dbl.toRat (a : Dbl) : ℚ := (a.m : ℚ) * (2 : ℚ) ^ a.e

/-- Canonical binary64 representations. -/
def Dbl.Canonical (a : Dbl) : Prop :=
  a.m.natAbs < 2 ^ 53 ∧ -1074 ≤ a.e ∧ a.e ≤ 971 ∧ (a.m.natAbs < 2 ^ 52 → a.e = -1074)

/-- The double `1.0`. -/
def Dbl.one : Dbl := ⟨4503599627370496, -52⟩

/-- The double `0.0`. -/
def Dbl.zero : Dbl := ⟨0, -1074⟩

/-- The value of an in-range `int` expression: `some i` when `i` fits 32 bits. -/
def int_checked (i : Int) : Option Int :=
  if -2147483648 ≤ i ∧ i ≤ 2147483647 then some i else none

/-- The conversion `static_cast<int>(a)`: truncation toward zero, undefined
when the truncated value does not fit an `int`. -/
def static_cast_int (a : Dbl) : Option Int :=
  int_checked (Int.sign a.m * ((a.m.natAbs * 2 ^ a.e.toNat / 2 ^ (-a.e).toNat : Nat) : Int))

/-- Truncation of a rational toward zero. -/
def truncRat (q : ℚ) : Int := if 0 ≤ q then ⌊q⌋ else ⌈q⌉

/-! ## Qt colour helpers -/

/-- Qt `qBound(min, val, max)`, that is `qMax(min, qMin(max, val))`. -/
def qBound (mn val mx : Int) : Int := max mn (min mx val)

/-- Qt `qRed(rgb)`: `(rgb >> 16) & 0xff`. -/
def qRed (rgb : Nat) : Nat := rgb / 65536 % 256

/-- Qt `qGreen(rgb)`: `(rgb >> 8) & 0xff`. -/
def qGreen (rgb : Nat) : Nat := rgb / 256 % 256

/-- Qt `qBlue(rgb)`: `rgb & 0xff`. -/
def qBlue (rgb : Nat) : Nat := rgb % 256

/-- Qt `qAlpha(rgb)`: `rgb >> 24`. -/
def qAlpha (rgb : Nat) : Nat := rgb / 16777216

/-- Qt `qRgb(r, g, b)`:
`(0xffu << 24) | ((r & 0xffu) << 16) | ((g & 0xffu) << 8) | (b & 0xffu)`. -/
def qRgb (r g b : Int) : Nat :=
  4278190080 + (r % 256).toNat * 65536 + (g % 256).toNat * 256 + (b % 256).toNat

/-! ## QImage -/

/-- The image formats `QImage::Format` covered here. -/
inductive QImage.Format where
  | Format_Mono
  | Format_MonoLSB
  | Format_Indexed8
  | Format_RGB32
  | Format_ARGB32
  | Format_ARGB32_Premultiplied
deriving DecidableEq

/-- The formats whose pixels are indices into the colour table. -/
def QImage.Format.indexed : QImage.Format → Bool
  | .Format_Mono => true
  | .Format_MonoLSB => true
  | .Format_Indexed8 => true
  | _ => false

/-- The formats whose pixels are 32-bit `QRgb` values. -/
def QImage.Format.rgb32 : QImage.Format → Bool
  | .Format_RGB32 => true
  | .Format_ARGB32 => true
  | .Format_ARGB32_Premultiplied => true
  | _ => false

/-- An image: its format, its dimensions, its colour table and the word stored at
each coordinate (a `QRgb` for the 32-bit formats, a colour table index for the
palettised ones).  The colour table is a `QVector<QRgb>`, whose size is an `int`. -/
structure QImage where
  format : QImage.Format
  width : Nat
  height : Nat
  colortable : List Nat
  pix : Nat → Nat → Nat
  colorCount_le : colortable.length ≤ 2147483647

/-- `QImage::valid(x, y)`. -/
def QImage.valid (img : QImage) (x y : Nat) : Bool := decide (x < img.width) && decide (y < img.height)

/-- The `switch (d->format)` of `QImage::pixel`: the `QRgb` that a stored word `w`
stands for.  A palettised pixel is looked up in the colour table
(`d->colortable.at(index)`; the images Qt builds hold indices inside the table, and
the model answers `0` for any other); `Format_RGB32` answers `0xff000000 | w`;
`Format_ARGB32` and `Format_ARGB32_Premultiplied` answer the stored word. -/
def QImage.pixelOf (format : QImage.Format) (colortable : List Nat) (w : Nat) : Nat :=
  match format with
  | .Format_Mono => colortable.getD w 0
  | .Format_MonoLSB => colortable.getD w 0
  | .Format_Indexed8 => colortable.getD w 0
  | .Format_RGB32 => 4278190080 + w % 16777216
  | .Format_ARGB32 => w
  | .Format_ARGB32_Premultiplied => w

/-- The `switch (d->format)` of `QImage::setPixel(x, y, index_or_rgb)`: the word
stored afterwards at a pixel that held `w`.  For the palettised formats the argument
is an index: `Format_Mono` and `Format_MonoLSB` accept `0` and `1`, `Format_Indexed8`
accepts an index below the size of the colour table and stores it in a byte; any
other index only draws a warning and the pixel keeps `w`.  `Format_RGB32` stores
`0xff000000 | index_or_rgb`, the other 32-bit formats store the argument. -/
def QImage.storeOf (format : QImage.Format) (colortable : List Nat) (w index_or_rgb : Nat) : Nat :=
  match format with
  | .Format_Mono => if index_or_rgb > 1 then w else index_or_rgb
  | .Format_MonoLSB => if index_or_rgb > 1 then w else index_or_rgb
  | .Format_Indexed8 => if index_or_rgb ≥ colortable.length then w else index_or_rgb % 256
  | .Format_RGB32 => 4278190080 + index_or_rgb % 16777216
  | .Format_ARGB32 => index_or_rgb
  | .Format_ARGB32_Premultiplied => index_or_rgb

/-- `QImage::pixel(x, y)`; Qt answers `12345` outside the image. -/
def QImage.pixel (img : QImage) (x y : Nat) : Nat :=
  if img.valid x y then QImage.pixelOf img.format img.colortable (img.pix x y) else 12345

/-- `QImage::setPixel(x, y, index_or_rgb)`; ignored outside the image. -/
def QImage.setPixel (img : QImage) (x y index_or_rgb : Nat) : QImage :=
  if img.valid x y then
    { img with pix := fun x1 y1 =>
        if x1 = x ∧ y1 = y then
          QImage.storeOf img.format img.colortable (img.pix x y) index_or_rgb
        else img.pix x1 y1 }
  else img

/-- `QImage::copy()`: a deep copy. -/
def QImage.copy (img : QImage) : QImage := img

/-- Every stored word is a 32-bit value. -/
def QImage.WellFormed (img : QImage) : Prop :=
  ∀ x y, x < img.width → y < img.height → img.pix x y < 4294967296

/-- Two images agree pixel for pixel. -/
def QImage.Same (a b : QImage) : Prop :=
  a.width = b.width ∧ a.height = b.height ∧
    ∀ x y, x < a.width → y < a.height → a.pixel x y = b.pixel x y

/-! ## gamma_correction -/

/-- The expression `qBound(0, static_cast<int>(qPow(c / 255.0, gamma) * 255), 255)`
which `gamma_correction` applies to the red, green and blue value `c` of a pixel. -/
def gamma_channel (qPow : Dbl → Dbl → Option Dbl) (gamma : Dbl) (c : Nat) : Option Int := do
  let x ← Dbl.div (Dbl.ofInt c) (Dbl.ofInt 255)
  let p ← qPow x gamma
  let z ← Dbl.mul p (Dbl.ofInt 255)
  let t ← static_cast_int z
  pure (qBound 0 t 255)

/-- The body of the inner loop of `gamma_correction` at `(x, y)`. -/
def gamma_pixel (qPow : Dbl → Dbl → Option Dbl) (gamma : Dbl) (m_image : QImage) (x y : Nat) :
    Option QImage := do
  let pixel := m_image.pixel x y
  let red ← gamma_channel qPow gamma (qRed pixel)
  let green ← gamma_channel qPow gamma (qGreen pixel)
  let blue ← gamma_channel qPow gamma (qBlue pixel)
  pure (m_image.setPixel x y (qRgb red green blue))

/-- The function `gamma_correction(image, gamma)` of `ImageViewer.cpp`. -/
def gamma_correction (qPow : Dbl → Dbl → Option Dbl) (image : QImage) (gamma : Dbl) :
    Option QImage :=
  let m_image := image.copy
  (List.range m_image.height).foldlM
    (fun m_image y =>
      (List.range m_image.width).foldlM (fun m_image x => gamma_pixel qPow gamma m_image x y)
        m_image)
    m_image

/-! ## Qt value types and widgets -/

/-- Qt `QSize`. -/
structure QSize where
  wd : Int
  ht : Int
deriving DecidableEq

/-- Qt `QPoint`. -/
structure QPoint where
  xp : Int
  yp : Int
deriving DecidableEq

/-- The properties of a `QAbstractSlider` (`QSlider`, `QScrollBar`) used here. -/
structure QAbstractSlider where
  minimum : Int
  maximum : Int
  value : Int
  pageStep : Int
deriving DecidableEq

/-- `QAbstractSlider::setValue`: the value is bounded to the slider range.  With
signals blocked, or with no slot of the viewer connected, nothing else happens. -/
def QAbstractSlider.setValue (sl : QAbstractSlider) (v : Int) : QAbstractSlider :=
  { sl with value := qBound sl.minimum v sl.maximum }

/-- Narrowing of a `qint64` to `int` (two's complement wrap-around). -/
def wrap32 (i : Int) : Int := (i + 2147483648) % 4294967296 - 2147483648

/-- `QSize::scaled(s, Qt::KeepAspectRatio)`. -/
def QSize.scaled (sz s : QSize) : QSize :=
  if sz.wd = 0 ∨ sz.ht = 0 then s else
  let rw : Int := Int.tdiv (s.ht * sz.wd) sz.ht
  if rw ≤ s.wd then ⟨wrap32 rw, s.ht⟩
  else ⟨s.wd, wrap32 (Int.tdiv (s.wd * sz.ht) sz.wd)⟩

/-- The double `0.5`. -/
def Dbl.half : Dbl := ⟨4503599627370496, -53⟩

/-- Qt 5 `qRound(double d)`:
`d >= 0.0 ? int(d + 0.5) : int(d - double(int(d-1)) + 0.5) + int(d-1)`. -/
def qRound (d : Dbl) : Option Int :=
  if d.nonneg then do
    let a ← Dbl.add d Dbl.half
    static_cast_int a
  else do
    let d1 ← Dbl.sub d Dbl.one
    let i1 ← static_cast_int d1
    let a ← Dbl.sub d (Dbl.ofInt i1)
    let b ← Dbl.add a Dbl.half
    let i2 ← static_cast_int b
    int_checked (i2 + i1)

/-- Qt `operator*(const QSize &, qreal)`: `QSize(qRound(wd * c), qRound(ht * c))`. -/
def QSize.mul (s : QSize) (c : Dbl) : Option QSize := do
  let w ← Dbl.mul (Dbl.ofInt s.wd) c
  let w1 ← qRound w
  let h ← Dbl.mul (Dbl.ofInt s.ht) c
  let h1 ← qRound h
  pure ⟨w1, h1⟩

/-- Qt `QWIDGETSIZE_MAX`. -/
def QWIDGETSIZE_MAX : Int := 16777215

/-- Codes of `QEvent::Type`, `Qt::MouseButton` and `Qt::CursorShape`. -/
def QEvent_MouseButtonPress : Nat := 2

/-- Code of `QEvent::MouseButtonRelease`. -/
def QEvent_MouseButtonRelease : Nat := 3

/-- Code of `QEvent::MouseMove`. -/
def QEvent_MouseMove : Nat := 5

/-- Code of `QEvent::Resize`. -/
def QEvent_Resize : Nat := 14

/-- Code of `QEvent::Wheel`. -/
def QEvent_Wheel : Nat := 31

/-- Code of `Qt::LeftButton`. -/
def Qt_LeftButton : Nat := 1

/-- Code of `Qt::ArrowCursor`. -/
def Qt_ArrowCursor : Nat := 0

/-- Code of `Qt::ClosedHandCursor`. -/
def Qt_ClosedHandCursor : Nat := 18

/-- An event delivered to the filter: its type and the fields the filter reads
(`button()` and `globalPos()` of a mouse event, `angleDelta()` of a wheel event). -/
structure QEvent where
  type : Nat
  button : Nat
  globalPos : QPoint
  angleDelta : QPoint
deriving DecidableEq

/-! ## The ImageViewer widget -/

/-- The state of an `ImageViewer`: the members declared in `ImageViewer.h` and the
properties of the `ui` widgets (`sliderScale`, `scrollArea` with its viewport and
scroll bars, `labelView`, `buttonFitToWindow`) that the code reads and writes. -/
structure ImageViewer where
  sliderScale : QAbstractSlider
  horizontalScrollBar : QAbstractSlider
  verticalScrollBar : QAbstractSlider
  viewport : QSize
  widgetResizable : Bool
  cursor : Nat
  labelMaximumSize : QSize
  labelSize : QSize
  labelPixmap : QImage
  buttonFitToWindow : Bool
  m_image_size : QSize
  m_pan_mode : Bool
  m_mouse_down : QPoint
  m_image : QImage
  m_default_gamma : Dbl
  m_gamma_instead_of_scaling : Bool

namespace ImageViewer

/-- `labelView->setMaximumSize(sz)`: Qt bounds both sides to `0 .. QWIDGETSIZE_MAX`
and shrinks a widget that is larger than its new maximum. -/
def setLabelMaximumSize (s : ImageViewer) (sz : QSize) : ImageViewer :=
  let w := max (min sz.wd QWIDGETSIZE_MAX) 0
  let h := max (min sz.ht QWIDGETSIZE_MAX) 0
  { s with labelMaximumSize := ⟨w, h⟩,
           labelSize := ⟨min w s.labelSize.wd, min h s.labelSize.ht⟩ }

/-- `labelView->resize(sz)`: the size is bounded by the maximum size. -/
def resizeLabel (s : ImageViewer) (sz : QSize) : ImageViewer :=
  { s with labelSize := ⟨max 0 (min sz.wd s.labelMaximumSize.wd),
                         max 0 (min sz.ht s.labelMaximumSize.ht)⟩ }

/-- `ImageViewer::showImage(image, gamma)`. -/
def showImage (qPow : Dbl → Dbl → Option Dbl) (s : ImageViewer) (image : QImage) (gamma : Dbl) :
    Option ImageViewer := do
  let new_image ← gamma_correction qPow image gamma
  pure { s with labelPixmap := new_image }

/-- `ImageViewer::isQSizeCovered(rect)`. -/
def isQSizeCovered (s : ImageViewer) (rect : QSize) : Bool :=
  let widget_size := s.viewport
  decide (widget_size.wd ≥ rect.wd) && decide (widget_size.ht ≥ rect.ht)

/-- `ImageViewer::setNoFitWithoutSignal()`. -/
def setNoFitWithoutSignal (s : ImageViewer) : ImageViewer :=
  if s.buttonFitToWindow then
    { s with widgetResizable := false, buttonFitToWindow := false }
  else s

/-- `ImageViewer::setSliderValueWithoutSignal(value)`. -/
def setSliderValueWithoutSignal (s : ImageViewer) (value : Int) : ImageViewer :=
  { s with sliderScale := s.sliderScale.setValue value }

/-- The lambda `adjust_scrollbar` of `scaleImage`:
`setValue(static_cast<int>(factor * value() + ((factor - 1) * pageStep() / 2)))`. -/
def adjust_scrollbar (scroll_bar : QAbstractSlider) (factor : Dbl) : Option QAbstractSlider := do
  let a ← Dbl.mul factor (Dbl.ofInt scroll_bar.value)
  let b ← Dbl.sub factor (Dbl.ofInt 1)
  let c ← Dbl.mul b (Dbl.ofInt scroll_bar.pageStep)
  let d ← Dbl.div c (Dbl.ofInt 2)
  let z ← Dbl.add a d
  let v ← static_cast_int z
  pure (scroll_bar.setValue v)

/-- `ImageViewer::scaleImage(scale)`. -/
def scaleImage (qPow : Dbl → Dbl → Option Dbl) (s : ImageViewer) (scale : Int) :
    Option ImageViewer := do
  let scale := min s.sliderScale.maximum (max s.sliderScale.minimum scale)
  let s := s.setSliderValueWithoutSignal scale
  let s := s.setNoFitWithoutSignal
  let scale_factor ← Dbl.div (Dbl.ofInt scale) (Dbl.ofInt 100)
  let max_size_old := s.labelMaximumSize
  let s ←
    (if s.m_gamma_instead_of_scaling then do
      let gamma ← Dbl.div scale_factor (Dbl.ofInt 4)
      showImage qPow s s.m_image gamma
    else do
      let sz ← QSize.mul s.m_image_size scale_factor
      let s := s.setLabelMaximumSize sz
      pure (s.resizeLabel s.labelMaximumSize))
  let factor_change ← Dbl.div (Dbl.ofInt s.labelMaximumSize.wd) (Dbl.ofInt max_size_old.wd)
  let hb ← adjust_scrollbar s.horizontalScrollBar factor_change
  let vb ← adjust_scrollbar s.verticalScrollBar factor_change
  pure { s with horizontalScrollBar := hb, verticalScrollBar := vb }

/-- `ImageViewer::scaleToFitWindow(enabled)`. -/
def scaleToFitWindow (qPow : Dbl → Dbl → Option Dbl) (s : ImageViewer) (enabled : Bool) :
    Option ImageViewer :=
  let s := { s with widgetResizable := enabled }
  if !enabled then
    scaleImage qPow s 100
  else do
    let s := s.setLabelMaximumSize (s.m_image_size.scaled s.viewport)
    let q ← Dbl.div (Dbl.ofInt s.labelMaximumSize.wd) (Dbl.ofInt s.m_image_size.wd)
    let r ← Dbl.mul q (Dbl.ofInt 100)
    let v ← static_cast_int r
    pure (s.setSliderValueWithoutSignal v)

/-- `ImageViewer::eventFilter(obj, e)`: the new state and the returned flag. -/
def eventFilter (qPow : Dbl → Dbl → Option Dbl) (s : ImageViewer) (e : QEvent) :
    Option (ImageViewer × Bool) :=
  let e_type := e.type
  if e_type = QEvent_Wheel then do
    let step := s.sliderScale.pageStep
    let step ← (if e.angleDelta.yp < 0 then int_checked (-step) else pure step)
    let target ← int_checked (s.sliderScale.value + step)
    let s ← scaleImage qPow s target
    pure (s, true)
  else if s.buttonFitToWindow then
    if e_type = QEvent_Resize then do
      let s ← scaleToFitWindow qPow s true
      pure (s, false)
    else pure (s, false)
  else if QEvent_MouseButtonPress ≤ e_type ∧ e_type ≤ QEvent_MouseMove then
    if e_type = QEvent_MouseButtonPress ∧ e.button = Qt_LeftButton ∧
        ¬ s.isQSizeCovered s.labelSize then
      pure ({ s with m_mouse_down := e.globalPos, m_pan_mode := true,
                     cursor := Qt_ClosedHandCursor }, false)
    else if e_type = QEvent_MouseMove ∧ s.m_pan_mode then do
      let dx ← int_checked (e.globalPos.xp - s.m_mouse_down.xp)
      let dy ← int_checked (e.globalPos.yp - s.m_mouse_down.yp)
      let s := { s with m_mouse_down := e.globalPos }
      let s ←
        (if dx ≠ 0 then do
          let v ← int_checked (s.horizontalScrollBar.value - dx)
          pure { s with horizontalScrollBar := s.horizontalScrollBar.setValue v }
        else pure s)
      let s ←
        (if dy ≠ 0 then do
          let v ← int_checked (s.verticalScrollBar.value - dy)
          pure { s with verticalScrollBar := s.verticalScrollBar.setValue v }
        else pure s)
      pure (s, false)
    else if e_type = QEvent_MouseButtonRelease ∧ e.button = Qt_LeftButton then
      pure ({ s with m_pan_mode := false, cursor := Qt_ArrowCursor }, false)
    else pure (s, false)
  else pure (s, false)

end ImageViewer

open ImageViewer

/-! ## A reference `pow` -/

/-- The double `2.0`. -/
def Dbl.two : Dbl := ⟨4503599627370496, -51⟩

/-- A reference `pow` for `0 ≤ x`, defined where the result is exact or fixed by
IEEE 754: `pow(x, 1) = x`, `pow(1, y) = 1`, `pow(0, y) = 0` for `0 < y`, and for `y = 2`
the correctly rounded square.  Other arguments are left undefined. -/
def libm_pow_ref (x y : Dbl) : Option Dbl :=
  if y = Dbl.one then some x
  else if x = Dbl.one then some Dbl.one
  else if x = Dbl.zero ∧ 0 < y.m then some Dbl.zero
  else if y = Dbl.two then Dbl.mul x x
  else none

/-! ## Auxiliary definitions for the statements -/

/-- The new `QRgb` that `gamma_correction` stores for a pixel holding `pixel`. -/
def gamma_rgb (qPow : Dbl → Dbl → Option Dbl) (gamma : Dbl) (pixel : Nat) : Option Nat := do
  let red ← gamma_channel qPow gamma (qRed pixel)
  let green ← gamma_channel qPow gamma (qGreen pixel)
  let blue ← gamma_channel qPow gamma (qBlue pixel)
  pure (qRgb red green blue)

/-- The word that `gamma_correction` leaves at a pixel of an image with the given
format and colour table that held the word `w`. -/
def gamma_word (qPow : Dbl → Dbl → Option Dbl) (gamma : Dbl) (format : QImage.Format)
    (colortable : List Nat) (w : Nat) : Option Nat :=
  (gamma_rgb qPow gamma (QImage.pixelOf format colortable w)).map
    (QImage.storeOf format colortable w)

/-- The image after the first `n` pixels of row `y` have been replaced through `f`. -/
def rowUpdate (f : Nat → Option Nat) (img : QImage) (y n : Nat) : QImage :=
  { img with pix := fun x1 y1 => if y1 = y ∧ x1 < n then (f (img.pix x1 y)).getD 0 else img.pix x1 y1 }

/-- The image after the first `k` rows have been replaced through `f`. -/
def imgUpdate (f : Nat → Option Nat) (img : QImage) (k : Nat) : QImage :=
  { img with pix := fun x1 y1 =>
      if y1 < k ∧ x1 < img.width then (f (img.pix x1 y1)).getD 0 else img.pix x1 y1 }

/-- The channel computation of `gamma_correction` with the call to `qPow` left out:
`static_cast<int>((c / 255.0) * 255)`. -/
def unit_channel (c : Nat) : Option Int := do
  let x ← Dbl.div (Dbl.ofInt c) (Dbl.ofInt 255)
  let z ← Dbl.mul x (Dbl.ofInt 255)
  static_cast_int z

/-- The relation between a channel value `c` of the input and the value `c1`
that `gamma_correction` stores: `c1 = clamp(0, 255, trunc(z))`, where `z` is the
double `qPow(c / 255.0, gamma) * 255`. -/
def ChannelTruncated (qPow : Dbl → Dbl → Option Dbl) (gamma : Dbl) (c c1 : Nat) : Prop :=
  ∃ x p z, Dbl.div (Dbl.ofInt c) (Dbl.ofInt 255) = some x ∧ qPow x gamma = some p ∧
    Dbl.mul p (Dbl.ofInt 255) = some z ∧ (static_cast_int z).isSome ∧
    (c1 : Int) = qBound 0 (truncRat z.toRat) 255

/-- A 1x1 image holding the opaque colour (200, 0, 0). -/
def image_red200 : QImage :=
  { format := .Format_ARGB32, width := 1, height := 1, colortable := [],
    pix := fun _ _ => 4291297280, colorCount_le := by decide }

/-- A 1x1 image holding the half-transparent colour (200, 100, 50). -/
def image_translucent : QImage :=
  { format := .Format_ARGB32, width := 1, height := 1, colortable := [],
    pix := fun _ _ => 2160616498, colorCount_le := by decide }

/-- A palettised 1x1 image (`Format_Indexed8`) whose only colour table entry is the
half-transparent colour (200, 100, 50), as a PNG with a palette and transparency
loads. -/
def image_palettised : QImage :=
  { format := .Format_Indexed8, width := 1, height := 1, colortable := [2160616498],
    pix := fun _ _ => 0, colorCount_le := by decide }

/-- The range of a C++ `int`. -/
def InIntRange (i : Int) : Prop := -2147483648 ≤ i ∧ i ≤ 2147483647

instance (i : Int) : Decidable (InIntRange i) := by
  unfold InIntRange
  infer_instance

/-- The slider value `scaleImage(scale)` asks for: `scale` clamped to the slider range. -/
def clampScale (sl : QAbstractSlider) (scale : Int) : Int :=
  min sl.maximum (max sl.minimum scale)

/-- A 2x1 image: an opaque black pixel and an opaque white pixel. -/
def image_bw : QImage :=
  { format := .Format_ARGB32, width := 2, height := 1, colortable := [],
    pix := fun x _ => if x = 0 then 4278190080 else 4294967295, colorCount_le := by decide }

/-- A viewer right after `setImage(image_bw)` in a viewport of 150x100: the label's
maximum size is the image size scaled to the viewport, nothing can be scrolled, and
the fit-to-window button is checked. -/
def viewer_example : ImageViewer :=
  { sliderScale := ⟨1, 1000, 1000, 50⟩
    horizontalScrollBar := ⟨0, 0, 0, 150⟩
    verticalScrollBar := ⟨0, 0, 0, 100⟩
    viewport := ⟨150, 100⟩
    widgetResizable := true
    cursor := Qt_ArrowCursor
    labelMaximumSize := ⟨150, 75⟩
    labelSize := ⟨150, 75⟩
    labelPixmap := image_bw
    buttonFitToWindow := true
    m_image_size := ⟨2, 1⟩
    m_pan_mode := false
    m_mouse_down := ⟨0, 0⟩
    m_image := image_bw
    m_default_gamma := Dbl.one
    m_gamma_instead_of_scaling := true }

/-- A scroll bar is consistent: its value is an `int` inside its range. -/
def QAbstractSlider.Consistent (sb : QAbstractSlider) : Prop :=
  sb.minimum ≤ sb.value ∧ sb.value ≤ sb.maximum ∧ InIntRange sb.value

instance (sb : QAbstractSlider) : Decidable sb.Consistent := by
  unfold QAbstractSlider.Consistent
  infer_instance

/-- The double `0.25`. -/
def Dbl.quarter : Dbl := ⟨4503599627370496, -54⟩

/-- The slot connected to `buttonOriginalSize` in the constructor: `scaleImage(100)`. -/
def ImageViewer.buttonOriginalSize_clicked (qPow : Dbl → Dbl → Option Dbl) (s : ImageViewer) :
    Option ImageViewer :=
  scaleImage qPow s 100

/-- The scale a wheel event asks for: the slider value moved by one page step, down
for a negative vertical angle delta and up otherwise. -/
def wheelTarget (s : ImageViewer) (e : QEvent) : Int :=
  s.sliderScale.value +
    (if e.angleDelta.yp < 0 then -s.sliderScale.pageStep else s.sliderScale.pageStep)

/-- A wheel event turned toward the user (vertical angle delta -120). -/
def wheel_down : QEvent := ⟨QEvent_Wheel, 0, ⟨0, 0⟩, ⟨0, -120⟩⟩

/-- The viewer after the events `es` have passed through `eventFilter` in order. -/
def runFilter (qPow : Dbl → Dbl → Option Dbl) (s : ImageViewer) (es : List QEvent) :
    Option ImageViewer :=
  es.foldlM (fun s e => (eventFilter qPow s e).map Prod.fst) s

/-- The global position of the last event of `es`; `p` when there is none. -/
def lastPos (p : QPoint) (es : List QEvent) : QPoint :=
  es.foldl (fun _ e => e.globalPos) p

/-- The state a left-button press leaves behind when it starts a pan. -/
def pressed (s : ImageViewer) (e : QEvent) : ImageViewer :=
  { s with m_mouse_down := e.globalPos, m_pan_mode := true, cursor := Qt_ClosedHandCursor }

/-- The scroll bar after a drag by `d`: untouched when `d = 0`. -/
def dragged (sb : QAbstractSlider) (d : Int) : QAbstractSlider :=
  if d ≠ 0 then sb.setValue (sb.value - d) else sb

/-- Coordinates of a point on a screen: far inside the range of `int`. -/
def OnScreen (p : QPoint) : Prop :=
  -1073741824 ≤ p.xp ∧ p.xp ≤ 1073741823 ∧ -1073741824 ≤ p.yp ∧ p.yp ≤ 1073741823

instance (p : QPoint) : Decidable (OnScreen p) := by
  unfold OnScreen
  infer_instance

/-- No scroll bar value is cut off: dragging from `p0` to `p` keeps the values
`h0 - (p.x - p0.x)` and `v0 - (p.y - p0.y)` inside the ranges of the two scroll bars. -/
def NotCutOff (s : ImageViewer) (p0 : QPoint) (h0 v0 : Int) (p : QPoint) : Prop :=
  s.horizontalScrollBar.minimum ≤ h0 - (p.xp - p0.xp) ∧
  h0 - (p.xp - p0.xp) ≤ s.horizontalScrollBar.maximum ∧
  s.verticalScrollBar.minimum ≤ v0 - (p.yp - p0.yp) ∧
  v0 - (p.yp - p0.yp) ≤ s.verticalScrollBar.maximum

instance (s : ImageViewer) (p0 : QPoint) (h0 v0 : Int) (p : QPoint) :
    Decidable (NotCutOff s p0 h0 v0 p) := by
  unfold NotCutOff
  infer_instance

/-- The state a left-button release leaves behind. -/
def released (s : ImageViewer) : ImageViewer :=
  { s with m_pan_mode := false, cursor := Qt_ArrowCursor }

/-- The example viewer with the fit-to-window button unchecked and its window shrunk
to a viewport of 50x40, scrolled to (30, 20). -/
def viewer_unfitted : ImageViewer :=
  { viewer_example with
    buttonFitToWindow := false
    widgetResizable := false
    viewport := ⟨50, 40⟩
    horizontalScrollBar := ⟨0, 100, 30, 50⟩
    verticalScrollBar := ⟨0, 35, 20, 40⟩ }

/-- A left-button press at (100, 100). -/
def press_at_100 : QEvent := ⟨QEvent_MouseButtonPress, Qt_LeftButton, ⟨100, 100⟩, ⟨0, 0⟩⟩

/-- Mouse moves to (90, 95) and on to (80, 90). -/
def moves_to_80_90 : List QEvent :=
  [⟨QEvent_MouseMove, 0, ⟨90, 95⟩, ⟨0, 0⟩⟩, ⟨QEvent_MouseMove, 0, ⟨80, 90⟩, ⟨0, 0⟩⟩]

theorem bitLenAux_zero (fuel : Nat) : bitLenAux fuel 0 = 0 := by
  cases fuel <;> simp [bitLenAux]

theorem bitLenAux_spec (fuel : Nat) :
    ∀ n, n ≤ fuel → n < 2 ^ bitLenAux fuel n ∧ (n ≠ 0 → 2 ^ (bitLenAux fuel n - 1) ≤ n) := by
  induction fuel with
  | zero =>
    intro n hn
    have : n = 0 := by omega
    subst this
    simp [bitLenAux]
  | succ fuel ih =>
    intro n hn
    by_cases h0 : n = 0
    · subst h0; simp [bitLenAux]
    · have hle : n / 2 ≤ fuel := by omega
      obtain ⟨h1, h2⟩ := ih (n / 2) hle
      simp only [bitLenAux, h0, if_false, Nat.add_sub_cancel]
      constructor
      · rw [pow_succ]; omega
      · intro _
        by_cases hh : n / 2 = 0
        · rw [hh, bitLenAux_zero]; simp; omega
        · have h3 := h2 hh
          have hk : bitLenAux fuel (n / 2) ≠ 0 := by
            intro hk
            rw [hk] at h1
            simp at h1
            exact hh h1
          obtain ⟨k, hk1⟩ := Nat.exists_eq_succ_of_ne_zero hk
          rw [hk1] at h3 ⊢
          simp only [Nat.succ_sub_one] at h3
          rw [Nat.succ_eq_add_one, pow_succ]
          omega

theorem bitLen_lt (n : Nat) : n < 2 ^ bitLen n := (bitLenAux_spec n n le_rfl).1

theorem bitLen_le (n : Nat) (h : n ≠ 0) : 2 ^ (bitLen n - 1) ≤ n := (bitLenAux_spec n n le_rfl).2 h

theorem bitLen_pos (n : Nat) (h : n ≠ 0) : 0 < bitLen n := by
  by_contra hc
  have h0 : bitLen n = 0 := by omega
  have := bitLen_lt n
  rw [h0] at this
  omega

theorem bitLen_eq (n k : Nat) (h1 : 2 ^ k ≤ n) (h2 : n < 2 ^ (k + 1)) : bitLen n = k + 1 := by
  have hn : n ≠ 0 := by
    have : 0 < 2 ^ k := Nat.two_pow_pos k
    omega
  have a := bitLen_lt n
  have b := bitLen_le n hn
  have hp := bitLen_pos n hn
  have c1 : k < bitLen n := by
    by_contra hc
    have : bitLen n ≤ k := by omega
    have := Nat.pow_le_pow_right (show 0 < 2 by norm_num) this
    omega
  have c2 : bitLen n - 1 < k + 1 := by
    by_contra hc
    have : k + 1 ≤ bitLen n - 1 := by omega
    have := Nat.pow_le_pow_right (show 0 < 2 by norm_num) this
    omega
  omega

theorem two_zpow_pos (e : Int) : (0 : ℚ) < (2 : ℚ) ^ e := zpow_pos (by norm_num) e

theorem pow_toNat_split (e : Int) :
    ((2 ^ e.toNat : Nat) : ℚ) = (2 : ℚ) ^ e * ((2 ^ (-e).toNat : Nat) : ℚ) := by
  rcases le_total 0 e with h | h
  · have h1 : (-e).toNat = 0 := by omega
    rw [h1]
    push_cast
    rw [← zpow_natCast, Int.toNat_of_nonneg h]
    simp
  · have h1 : e.toNat = 0 := by omega
    rw [h1]
    push_cast
    rw [← zpow_natCast (2 : ℚ) (-e).toNat, Int.toNat_of_nonneg (by omega), ← zpow_add₀ (by norm_num)]
    simp

theorem natCast_two_pow (k : Nat) : ((2 ^ k : Nat) : ℚ) = (2 : ℚ) ^ (k : Int) := by
  push_cast
  rw [zpow_natCast]

theorem two_pow_toNat_pos (e : Int) : (0 : ℚ) < ((2 ^ e.toNat : Nat) : ℚ) := by
  have : 0 < 2 ^ e.toNat := Nat.two_pow_pos _
  exact_mod_cast this

theorem zpow_two_lt_iff (a b : Int) : (2 : ℚ) ^ a < (2 : ℚ) ^ b ↔ a < b :=
  zpow_lt_zpow_iff_right₀ (by norm_num)

theorem zpow_two_le_iff (a b : Int) : (2 : ℚ) ^ a ≤ (2 : ℚ) ^ b ↔ a ≤ b :=
  zpow_le_zpow_iff_right₀ (by norm_num)

/-- The binary exponent of a positive rational is unique. -/
theorem log2_unique (q : ℚ) (l1 l2 : Int) (h1 : (2 : ℚ) ^ l1 ≤ q) (h2 : q < (2 : ℚ) ^ (l1 + 1))
    (h3 : (2 : ℚ) ^ l2 ≤ q) (h4 : q < (2 : ℚ) ^ (l2 + 1)) : l1 = l2 := by
  have a : l1 < l2 + 1 := (zpow_two_lt_iff _ _).1 (lt_of_le_of_lt h1 h4)
  have b : l2 < l1 + 1 := (zpow_two_lt_iff _ _).1 (lt_of_le_of_lt h3 h2)
  omega

theorem ilog2_test (n d : Nat) (hd : 0 < d) (e0 : Int) :
    d * 2 ^ e0.toNat ≤ n * 2 ^ (-e0).toNat ↔ (2 : ℚ) ^ e0 ≤ (n : ℚ) / d := by
  have hd1 : (0 : ℚ) < d := by exact_mod_cast hd
  have hp := two_pow_toNat_pos (-e0)
  rw [le_div_iff₀ hd1]
  have : (d * 2 ^ e0.toNat ≤ n * 2 ^ (-e0).toNat) ↔
      ((d : ℚ) * ((2 ^ e0.toNat : Nat) : ℚ) ≤ (n : ℚ) * ((2 ^ (-e0).toNat : Nat) : ℚ)) := by
    constructor
    · intro h; exact_mod_cast h
    · intro h; exact_mod_cast h
  rw [this, pow_toNat_split e0]
  constructor
  · intro h
    have h2 : (2 : ℚ) ^ e0 * d * ((2 ^ (-e0).toNat : Nat) : ℚ) ≤ n * ((2 ^ (-e0).toNat : Nat) : ℚ) := by
      linarith
    exact le_of_mul_le_mul_right h2 hp
  · intro h
    have := mul_le_mul_of_nonneg_right h hp.le
    linarith

theorem ilog2_spec (n d : Nat) (hn : 0 < n) (hd : 0 < d) :
    (2 : ℚ) ^ ilog2 n d ≤ (n : ℚ) / d ∧ (n : ℚ) / d < (2 : ℚ) ^ (ilog2 n d + 1) := by
  have hd1 : (0 : ℚ) < d := by exact_mod_cast hd
  have hn1 : (0 : ℚ) < n := by exact_mod_cast hn
  have bn1 : (n : ℚ) < (2 : ℚ) ^ (bitLen n : Int) := by
    rw [← natCast_two_pow]; exact_mod_cast bitLen_lt n
  have bd1 : (d : ℚ) < (2 : ℚ) ^ (bitLen d : Int) := by
    rw [← natCast_two_pow]; exact_mod_cast bitLen_lt d
  have bn2 : (2 : ℚ) ^ ((bitLen n : Int) - 1) ≤ n := by
    have h := bitLen_le n (by omega)
    have hp := bitLen_pos n (by omega)
    have : ((bitLen n : Int) - 1) = ((bitLen n - 1 : Nat) : Int) := by omega
    rw [this, ← natCast_two_pow]; exact_mod_cast h
  have bd2 : (2 : ℚ) ^ ((bitLen d : Int) - 1) ≤ d := by
    have h := bitLen_le d (by omega)
    have hp := bitLen_pos d (by omega)
    have : ((bitLen d : Int) - 1) = ((bitLen d - 1 : Nat) : Int) := by omega
    rw [this, ← natCast_two_pow]; exact_mod_cast h
  unfold ilog2
  simp only
  split_ifs with h
  · rw [ilog2_test n d hd] at h
    refine ⟨h, ?_⟩
    rw [div_lt_iff₀ hd1]
    have e1 : (2 : ℚ) ^ ((bitLen n : Int) - (bitLen d : Int) + 1)
        = (2 : ℚ) ^ (bitLen n : Int) / (2 : ℚ) ^ ((bitLen d : Int) - 1) := by
      rw [← zpow_sub₀ (by norm_num)]; congr 1; ring
    rw [e1, div_mul_eq_mul_div, lt_div_iff₀ (two_zpow_pos _)]
    calc (n : ℚ) * (2 : ℚ) ^ ((bitLen d : Int) - 1) ≤ n * d := by
          exact mul_le_mul_of_nonneg_left bd2 hn1.le
      _ < (2 : ℚ) ^ (bitLen n : Int) * d := by
          exact mul_lt_mul_of_pos_right bn1 hd1
  · rw [ilog2_test n d hd] at h
    push_neg at h
    refine ⟨?_, by simpa using h⟩
    rw [le_div_iff₀ hd1]
    have e1 : (2 : ℚ) ^ ((bitLen n : Int) - (bitLen d : Int) - 1)
        = (2 : ℚ) ^ ((bitLen n : Int) - 1) / (2 : ℚ) ^ (bitLen d : Int) := by
      rw [← zpow_sub₀ (by norm_num)]; congr 1; ring
    rw [e1, div_mul_eq_mul_div, div_le_iff₀ (two_zpow_pos _)]
    calc (2 : ℚ) ^ ((bitLen n : Int) - 1) * d ≤ n * d := by
          exact mul_le_mul_of_nonneg_right bn2 hd1.le
      _ ≤ n * (2 : ℚ) ^ (bitLen d : Int) := by
          exact mul_le_mul_of_nonneg_left bd1.le hn1.le

theorem ilog2_eq (n d : Nat) (hn : 0 < n) (hd : 0 < d) (l : Int)
    (h1 : (2 : ℚ) ^ l ≤ (n : ℚ) / d) (h2 : (n : ℚ) / d < (2 : ℚ) ^ (l + 1)) : ilog2 n d = l := by
  obtain ⟨a, b⟩ := ilog2_spec n d hn hd
  exact log2_unique _ _ _ a b h1 h2

theorem rne_mul_left (k a b : Nat) (hk : 0 < k) : rne (k * a) (k * b) = rne a b := by
  unfold rne
  simp only [Nat.mul_div_mul_left _ _ hk, Nat.mul_mod_mul_left]
  have e1 : (2 * (k * (a % b)) < k * b) ↔ (2 * (a % b) < b) := by
    constructor <;> intro h <;> nlinarith
  have e2 : (k * b < 2 * (k * (a % b))) ↔ (b < 2 * (a % b)) := by
    constructor <;> intro h <;> nlinarith
  simp only [e1, e2]

theorem rne_congr (a b a1 b1 : Nat) (hb : 0 < b) (hb1 : 0 < b1) (h : a * b1 = a1 * b) :
    rne a b = rne a1 b1 := by
  rw [← rne_mul_left b1 a b hb1, ← rne_mul_left b a1 b1 hb]
  have e1 : b1 * a = b * a1 := by linarith
  have e2 : b1 * b = b * b1 := by ring
  rw [e1, e2]

theorem rne_congr_rat (a b a1 b1 : Nat) (hb : 0 < b) (hb1 : 0 < b1)
    (h : (a : ℚ) / b = (a1 : ℚ) / b1) : rne a b = rne a1 b1 := by
  apply rne_congr a b a1 b1 hb hb1
  have hbq : (b : ℚ) ≠ 0 := by positivity
  have hb1q : (b1 : ℚ) ≠ 0 := by positivity
  rw [div_eq_div_iff hbq hb1q] at h
  exact_mod_cast h

theorem rne_exact (m b : Nat) (hb : 0 < b) : rne (m * b) b = m := by
  unfold rne
  simp [Nat.mul_div_cancel _ hb, hb]

theorem rne_exact_rat (a b m : Nat) (hb : 0 < b) (h : (a : ℚ) / b = m) : rne a b = m := by
  have hbq : (b : ℚ) ≠ 0 := by positivity
  rw [div_eq_iff hbq] at h
  have : a = m * b := by exact_mod_cast h
  rw [this, rne_exact m b hb]

theorem rne_bound (a b : Nat) (hb : 0 < b) :
    2 * (b * rne a b) ≤ 2 * a + b ∧ 2 * a ≤ 2 * (b * rne a b) + b := by
  have h1 := Nat.div_add_mod a b
  have h2 := Nat.mod_lt a hb
  unfold rne
  simp only
  generalize a / b = q at h1 ⊢
  generalize a % b = r at h1 h2 ⊢
  have e1 : b * (q + 1) = b * q + b := by ring
  generalize hp : b * q = p at h1 e1 ⊢
  split_ifs <;> rw [← h1] <;> constructor <;> omega

theorem rne_bound_rat (a b : Nat) (hb : 0 < b) :
    |(rne a b : ℚ) - (a : ℚ) / b| ≤ 1 / 2 := by
  obtain ⟨h1, h2⟩ := rne_bound a b hb
  have hbq : (0 : ℚ) < b := by exact_mod_cast hb
  have h1q : (2 : ℚ) * (b * rne a b) ≤ 2 * a + b := by exact_mod_cast h1
  have h2q : (2 : ℚ) * a ≤ 2 * (b * rne a b) + b := by exact_mod_cast h2
  rw [abs_le]
  constructor
  · rw [le_sub_iff_add_le, ← sub_eq_neg_add, sub_le_iff_le_add, div_le_iff₀ hbq]
    nlinarith
  · rw [sub_le_iff_le_add, ← sub_le_iff_le_add', le_div_iff₀ hbq]
    nlinarith

theorem scaled_ratio (n den : Nat) (e : Int) :
    ((n * 2 ^ (-e).toNat : Nat) : ℚ) / ((den * 2 ^ e.toNat : Nat) : ℚ)
      = (n : ℚ) / den * (2 : ℚ) ^ (-e) := by
  have hp := two_pow_toNat_pos (-e)
  have h2 := two_zpow_pos e
  rw [Nat.cast_mul, Nat.cast_mul, pow_toNat_split e, zpow_neg]
  by_cases hd : (den : ℚ) = 0
  · simp [hd]
  · field_simp
    ring

theorem scaled_den_pos (den : Nat) (e : Int) (h : 0 < den) : 0 < den * 2 ^ e.toNat :=
  Nat.mul_pos h (Nat.two_pow_pos _)

theorem natAbs_ratio (num : Int) (den : Nat) :
    ((num.natAbs : Nat) : ℚ) / den = |(num : ℚ) / den| := by
  rw [abs_div, Nat.abs_cast, Nat.cast_natAbs, Int.cast_abs]

theorem sign_eq_of_ratio (num num1 : Int) (den den1 : Nat) (hd : 0 < den) (hd1 : 0 < den1)
    (h : (num : ℚ) / den = (num1 : ℚ) / den1) : Int.sign num = Int.sign num1 := by
  have hdq : (0 : ℚ) < den := by exact_mod_cast hd
  have hd1q : (0 : ℚ) < den1 := by exact_mod_cast hd1
  rw [div_eq_div_iff hdq.ne' hd1q.ne'] at h
  have h2 : num * (den1 : Int) = num1 * (den : Int) := by exact_mod_cast h
  have hdi : (0 : Int) < den := by exact_mod_cast hd
  have hd1i : (0 : Int) < den1 := by exact_mod_cast hd1
  have := congrArg Int.sign h2
  rw [Int.sign_mul, Int.sign_mul, Int.sign_eq_one_of_pos hdi, Int.sign_eq_one_of_pos hd1i] at this
  simpa using this

theorem zero_iff_of_ratio (num num1 : Int) (den den1 : Nat) (hd : 0 < den) (hd1 : 0 < den1)
    (h : (num : ℚ) / den = (num1 : ℚ) / den1) : num = 0 ↔ num1 = 0 := by
  have := sign_eq_of_ratio num num1 den den1 hd hd1 h
  rw [← Int.sign_eq_zero_iff_zero, ← Int.sign_eq_zero_iff_zero (a := num1), this]

/-- Rounding depends only on the rational value presented. -/
theorem round_congr (num num1 : Int) (den den1 : Nat) (hd : 0 < den) (hd1 : 0 < den1)
    (h : (num : ℚ) / den = (num1 : ℚ) / den1) : Dbl.round num den = Dbl.round num1 den1 := by
  have hz := zero_iff_of_ratio num num1 den den1 hd hd1 h
  have hs := sign_eq_of_ratio num num1 den den1 hd hd1 h
  by_cases h0 : num = 0
  · have h1 := hz.1 h0
    simp [Dbl.round, h0, h1]
  · have h1 : num1 ≠ 0 := fun hc => h0 (hz.2 hc)
    have hr : ((num.natAbs : Nat) : ℚ) / den = ((num1.natAbs : Nat) : ℚ) / den1 := by
      rw [natAbs_ratio, natAbs_ratio, h]
    have hn : 0 < num.natAbs := Int.natAbs_pos.2 h0
    have hn1 : 0 < num1.natAbs := Int.natAbs_pos.2 h1
    have hl : ilog2 num.natAbs den = ilog2 num1.natAbs den1 := by
      obtain ⟨a, b⟩ := ilog2_spec num1.natAbs den1 hn1 hd1
      rw [← hr] at a b
      exact ilog2_eq _ _ hn hd _ a b
    unfold Dbl.round
    simp only [h0, h1, if_false, hl, hs]
    have hq : rne (num.natAbs * 2 ^ (-(max (ilog2 num1.natAbs den1 - 52) (-1074))).toNat)
        (den * 2 ^ (max (ilog2 num1.natAbs den1 - 52) (-1074)).toNat)
        = rne (num1.natAbs * 2 ^ (-(max (ilog2 num1.natAbs den1 - 52) (-1074))).toNat)
        (den1 * 2 ^ (max (ilog2 num1.natAbs den1 - 52) (-1074)).toNat) := by
      apply rne_congr_rat _ _ _ _ (scaled_den_pos _ _ hd) (scaled_den_pos _ _ hd1)
      rw [scaled_ratio, scaled_ratio, hr]
    rw [hq]

theorem canon_ratio (m e : Int) :
    ((m * ((2 ^ e.toNat : Nat) : Int) : Int) : ℚ) / ((2 ^ (-e).toNat : Nat) : ℚ)
      = (m : ℚ) * (2 : ℚ) ^ e := by
  have hp := two_pow_toNat_pos (-e)
  rw [Int.cast_mul, Int.cast_natCast, pow_toNat_split e]
  field_simp
  ring

theorem bitLen_bounds_rat (n : Nat) (hn : 0 < n) :
    (2 : ℚ) ^ ((bitLen n : Int) - 1) ≤ n ∧ (n : ℚ) < (2 : ℚ) ^ (bitLen n : Int) := by
  constructor
  · have h := bitLen_le n (by omega)
    have hp := bitLen_pos n (by omega)
    have : ((bitLen n : Int) - 1) = ((bitLen n - 1 : Nat) : Int) := by omega
    rw [this, ← natCast_two_pow]; exact_mod_cast h
  · rw [← natCast_two_pow]; exact_mod_cast bitLen_lt n

theorem bitLen_le_of_lt (n k : Nat) (h : n < 2 ^ k) : bitLen n ≤ k := by
  by_cases hn : n = 0
  · subst hn; simp [bitLen, bitLenAux_zero]
  · have h1 := bitLen_le n hn
    by_contra hc
    have : k ≤ bitLen n - 1 := by omega
    have := Nat.pow_le_pow_right (show 0 < 2 by norm_num) this
    omega

theorem bitLen_ge_of_le (n k : Nat) (h : 2 ^ k ≤ n) : k + 1 ≤ bitLen n := by
  have h1 := bitLen_lt n
  by_contra hc
  have : bitLen n ≤ k := by omega
  have := Nat.pow_le_pow_right (show 0 < 2 by norm_num) this
  omega

/-- A canonical double is the rounding of its own value. -/
theorem round_canon_form (d : Dbl) (hd : d.Canonical) :
    Dbl.round (d.m * ((2 ^ d.e.toNat : Nat) : Int)) (2 ^ (-d.e).toNat) = some d := by
  obtain ⟨m, e⟩ := d
  obtain ⟨c1, c2, c3, c4⟩ := hd
  simp only at c1 c2 c3 c4 ⊢
  by_cases hm : m = 0
  · subst hm
    have := c4 (by simp)
    subst this
    simp [Dbl.round]
  · have hpP : (0 : Int) < ((2 ^ e.toNat : Nat) : Int) := by
      have : 0 < 2 ^ e.toNat := Nat.two_pow_pos _
      exact_mod_cast this
    have hnum : m * ((2 ^ e.toNat : Nat) : Int) ≠ 0 := mul_ne_zero hm hpP.ne'
    have hna : 0 < m.natAbs := Int.natAbs_pos.2 hm
    have hden : 0 < 2 ^ (-e).toNat := Nat.two_pow_pos _
    have hratio : (((m * ((2 ^ e.toNat : Nat) : Int)).natAbs : Nat) : ℚ) / ((2 ^ (-e).toNat : Nat) : ℚ)
        = (m.natAbs : ℚ) * (2 : ℚ) ^ e := by
      rw [natAbs_ratio, canon_ratio, abs_mul, abs_of_pos (two_zpow_pos e), Nat.cast_natAbs,
        Int.cast_abs]
    obtain ⟨b1, b2⟩ := bitLen_bounds_rat m.natAbs hna
    have hl : ilog2 (m * ((2 ^ e.toNat : Nat) : Int)).natAbs (2 ^ (-e).toNat)
        = (bitLen m.natAbs : Int) - 1 + e := by
      apply ilog2_eq _ _ (Int.natAbs_pos.2 hnum) hden
      · rw [hratio, zpow_add₀ (by norm_num)]
        exact mul_le_mul_of_nonneg_right b1 (two_zpow_pos e).le
      · rw [hratio, show (bitLen m.natAbs : Int) - 1 + e + 1 = (bitLen m.natAbs : Int) + e by ring,
          zpow_add₀ (by norm_num)]
        exact mul_lt_mul_of_pos_right b2 (two_zpow_pos e)
    have hk := bitLen_le_of_lt m.natAbs 53 c1
    have he : max ((bitLen m.natAbs : Int) - 1 + e - 52) (-1074) = e := by
      by_cases hs : m.natAbs < 2 ^ 52
      · have := c4 hs
        have := bitLen_le_of_lt m.natAbs 52 hs
        omega
      · have := bitLen_ge_of_le m.natAbs 52 (by omega)
        omega
    have hq : rne ((m * ((2 ^ e.toNat : Nat) : Int)).natAbs * 2 ^ (-e).toNat)
        (2 ^ (-e).toNat * 2 ^ e.toNat) = m.natAbs := by
      apply rne_exact_rat _ _ _ (scaled_den_pos _ _ hden)
      rw [scaled_ratio, hratio, mul_assoc, ← zpow_add₀ (by norm_num)]
      simp
    have hsign : Int.sign (m * ((2 ^ e.toNat : Nat) : Int)) = Int.sign m := by
      rw [Int.sign_mul, Int.sign_eq_one_of_pos hpP, mul_one]
    unfold Dbl.round
    simp only [hnum, if_false, hl, he, hq, hsign]
    have hne : m.natAbs ≠ 2 ^ 53 := by omega
    simp only [hne, if_false]
    have : ¬ (971 < e) := by omega
    simp only [this, if_false, Int.sign_mul_natAbs]

/-- Rounding an exactly representable value gives that value. -/
theorem round_exact (d : Dbl) (hd : d.Canonical) (num : Int) (den : Nat) (hden : 0 < den)
    (h : (num : ℚ) / den = d.toRat) : Dbl.round num den = some d := by
  rw [← round_canon_form d hd]
  apply round_congr _ _ _ _ hden (Nat.two_pow_pos _)
  rw [h, canon_ratio, Dbl.toRat]

theorem ofExact_ratio (num : Int) (den : Nat) (ex : Int) :
    ((num * ((2 ^ ex.toNat : Nat) : Int) : Int) : ℚ) / ((den * 2 ^ (-ex).toNat : Nat) : ℚ)
      = (num : ℚ) / den * (2 : ℚ) ^ ex := by
  have hp := two_pow_toNat_pos (-ex)
  rw [Int.cast_mul, Int.cast_natCast, Nat.cast_mul, pow_toNat_split ex]
  by_cases hd : (den : ℚ) = 0
  · simp [hd]
  · field_simp
    ring

theorem ofExact_eq_round (num : Int) (den : Nat) (ex : Int) (hden : 0 < den) (num1 : Int)
    (den1 : Nat) (hden1 : 0 < den1) (h : (num : ℚ) / den * (2 : ℚ) ^ ex = (num1 : ℚ) / den1) :
    Dbl.ofExact num den ex = Dbl.round num1 den1 := by
  unfold Dbl.ofExact
  apply round_congr _ _ _ _ (Nat.mul_pos hden (Nat.two_pow_pos _)) hden1
  rw [ofExact_ratio, h]

theorem mul_eq_round (a b : Dbl) (num : Int) (den : Nat) (hden : 0 < den)
    (h : a.toRat * b.toRat = (num : ℚ) / den) : Dbl.mul a b = Dbl.round num den := by
  unfold Dbl.mul
  apply ofExact_eq_round _ _ _ (by norm_num) _ _ hden
  rw [← h, Dbl.toRat, Dbl.toRat, zpow_add₀ (by norm_num)]
  push_cast
  ring

theorem sign_div_natAbs (b : Int) (hb : b ≠ 0) :
    ((Int.sign b : Int) : ℚ) = ((b.natAbs : Nat) : ℚ) / (b : ℚ) := by
  have hbq : (b : ℚ) ≠ 0 := by exact_mod_cast hb
  rw [eq_div_iff hbq]
  have : Int.sign b * b = ((b.natAbs : Nat) : Int) := by
    rcases lt_trichotomy b 0 with h | h | h
    · rw [Int.sign_eq_neg_one_of_neg h]; omega
    · exact absurd h hb
    · rw [Int.sign_eq_one_of_pos h]; omega
  have h2 := congrArg (Int.cast : Int → ℚ) this
  push_cast at h2
  rw [h2, Nat.cast_natAbs, Int.cast_abs]

theorem div_eq_round (a b : Dbl) (hb : b.m ≠ 0) (num : Int) (den : Nat) (hden : 0 < den)
    (h : a.toRat / b.toRat = (num : ℚ) / den) : Dbl.div a b = Dbl.round num den := by
  unfold Dbl.div
  simp only [hb, if_false]
  apply ofExact_eq_round _ _ _ (Int.natAbs_pos.2 hb) _ _ hden
  rw [← h, Dbl.toRat, Dbl.toRat, zpow_sub₀ (by norm_num)]
  have hs := sign_div_natAbs b.m hb
  have hbq : (b.m : ℚ) ≠ 0 := by exact_mod_cast hb
  have hnq : ((b.m.natAbs : Nat) : ℚ) ≠ 0 := by
    have := Int.natAbs_pos.2 hb
    positivity
  have h2 := (two_zpow_pos b.e).ne'
  rw [Int.cast_mul, hs]
  field_simp
  ring

theorem add_eq_round (a b : Dbl) (num : Int) (den : Nat) (hden : 0 < den)
    (h : a.toRat + b.toRat = (num : ℚ) / den) : Dbl.add a b = Dbl.round num den := by
  unfold Dbl.add
  apply ofExact_eq_round _ _ _ (by norm_num) _ _ hden
  rw [← h, Dbl.toRat, Dbl.toRat]
  have ha : 0 ≤ a.e - min a.e b.e := by omega
  have hb : 0 ≤ b.e - min a.e b.e := by omega
  have e1 : (((2 ^ (a.e - min a.e b.e).toNat : Nat) : Int) : ℚ) = (2 : ℚ) ^ (a.e - min a.e b.e) := by
    push_cast
    rw [← zpow_natCast, Int.toNat_of_nonneg ha]
  have e2 : (((2 ^ (b.e - min a.e b.e).toNat : Nat) : Int) : ℚ) = (2 : ℚ) ^ (b.e - min a.e b.e) := by
    push_cast
    rw [← zpow_natCast, Int.toNat_of_nonneg hb]
  rw [Int.cast_add, Int.cast_mul, Int.cast_mul, e1, e2, zpow_sub₀ (by norm_num),
    zpow_sub₀ (by norm_num)]
  have h2 := (two_zpow_pos (min a.e b.e)).ne'
  field_simp

theorem toRat_neg (b : Dbl) : (Dbl.mk (-b.m) b.e).toRat = -b.toRat := by
  simp [Dbl.toRat]

theorem sub_eq_round (a b : Dbl) (num : Int) (den : Nat) (hden : 0 < den)
    (h : a.toRat - b.toRat = (num : ℚ) / den) : Dbl.sub a b = Dbl.round num den := by
  unfold Dbl.sub
  apply add_eq_round _ _ _ _ hden
  rw [toRat_neg, ← h]
  ring

theorem toRat_as_ratio (d : Dbl) :
    d.toRat = ((d.m * ((2 ^ d.e.toNat : Nat) : Int) : Int) : ℚ) / ((2 ^ (-d.e).toNat : Nat) : ℚ) := by
  rw [canon_ratio, Dbl.toRat]

theorem mul_exact (a b d : Dbl) (hd : d.Canonical) (h : a.toRat * b.toRat = d.toRat) :
    Dbl.mul a b = some d := by
  rw [mul_eq_round a b _ _ (Nat.two_pow_pos _) (h.trans (toRat_as_ratio d)), round_canon_form d hd]

theorem div_exact (a b d : Dbl) (hb : b.m ≠ 0) (hd : d.Canonical)
    (h : a.toRat / b.toRat = d.toRat) : Dbl.div a b = some d := by
  rw [div_eq_round a b hb _ _ (Nat.two_pow_pos _) (h.trans (toRat_as_ratio d)),
    round_canon_form d hd]

theorem add_exact (a b d : Dbl) (hd : d.Canonical) (h : a.toRat + b.toRat = d.toRat) :
    Dbl.add a b = some d := by
  rw [add_eq_round a b _ _ (Nat.two_pow_pos _) (h.trans (toRat_as_ratio d)), round_canon_form d hd]

theorem sub_exact (a b d : Dbl) (hd : d.Canonical) (h : a.toRat - b.toRat = d.toRat) :
    Dbl.sub a b = some d := by
  rw [sub_eq_round a b _ _ (Nat.two_pow_pos _) (h.trans (toRat_as_ratio d)), round_canon_form d hd]

theorem toRat_ofInt (i : Int) : (Dbl.ofInt i).toRat = i := by
  unfold Dbl.ofInt
  split_ifs with h
  · simp [Dbl.toRat, h]
  · simp only [Dbl.toRat]
    rw [zpow_neg, Int.cast_mul, Int.cast_natCast, natCast_two_pow]
    have := (two_zpow_pos ((53 - bitLen i.natAbs : Nat) : Int)).ne'
    field_simp

theorem ofInt_m_ne_zero (i : Int) (h : i ≠ 0) : (Dbl.ofInt i).m ≠ 0 := by
  unfold Dbl.ofInt
  simp only [h, if_false]
  have : (0 : Int) < ((2 ^ (53 - bitLen i.natAbs) : Nat) : Int) := by
    have : 0 < 2 ^ (53 - bitLen i.natAbs) := Nat.two_pow_pos _
    exact_mod_cast this
  exact mul_ne_zero h this.ne'

theorem canonical_ofInt (i : Int) (h : i.natAbs < 2 ^ 53) : (Dbl.ofInt i).Canonical := by
  unfold Dbl.ofInt
  split_ifs with h0
  · simp [Dbl.Canonical]
  · have hn : i.natAbs ≠ 0 := by omega
    have hb := bitLen_le_of_lt _ _ h
    have hp := bitLen_pos _ hn
    have h1 := bitLen_lt i.natAbs
    have h2 := bitLen_le i.natAbs hn
    have e1 : (i * ((2 ^ (53 - bitLen i.natAbs) : Nat) : Int)).natAbs
        = i.natAbs * 2 ^ (53 - bitLen i.natAbs) := by
      rw [Int.natAbs_mul, Int.natAbs_ofNat]
    have e2 : 2 ^ 53 = 2 ^ bitLen i.natAbs * 2 ^ (53 - bitLen i.natAbs) := by
      rw [← pow_add]; congr 1; omega
    have e3 : 2 ^ 52 = 2 ^ (bitLen i.natAbs - 1) * 2 ^ (53 - bitLen i.natAbs) := by
      rw [← pow_add]; congr 1; omega
    have hpos : 0 < 2 ^ (53 - bitLen i.natAbs) := Nat.two_pow_pos _
    refine ⟨?_, ?_, ?_, ?_⟩
    · simp only
      rw [e1, e2]
      exact Nat.mul_lt_mul_of_pos_right h1 hpos
    · simp only; omega
    · simp only; omega
    · simp only
      intro hc
      rw [e1, e3] at hc
      have := Nat.mul_le_mul_right (2 ^ (53 - bitLen i.natAbs)) h2
      omega

theorem int_checked_eq (i : Int) (h1 : -2147483648 ≤ i) (h2 : i ≤ 2147483647) :
    int_checked i = some i := by
  simp [int_checked, h1, h2]

theorem int_checked_some (i t : Int) (h : int_checked i = some t) :
    t = i ∧ -2147483648 ≤ i ∧ i ≤ 2147483647 := by
  unfold int_checked at h
  split_ifs at h with hc
  simp only [Option.some.injEq] at h
  exact ⟨h.symm, hc.1, hc.2⟩

theorem static_cast_int_ofInt (i : Int) (h1 : -2147483648 ≤ i) (h2 : i ≤ 2147483647) :
    static_cast_int (Dbl.ofInt i) = some i := by
  unfold static_cast_int Dbl.ofInt
  split_ifs with h0
  · simp only [Int.sign_zero, zero_mul]
    exact h0 ▸ int_checked_eq 0 (by norm_num) (by norm_num)
  · simp only
    have e0 : (-((53 - bitLen i.natAbs : Nat) : Int)).toNat = 0 := by omega
    have e1 : (-(-((53 - bitLen i.natAbs : Nat) : Int))).toNat = 53 - bitLen i.natAbs := by omega
    have hpos : 0 < 2 ^ (53 - bitLen i.natAbs) := Nat.two_pow_pos _
    have hposi : (0 : Int) < ((2 ^ (53 - bitLen i.natAbs) : Nat) : Int) := by exact_mod_cast hpos
    rw [e0, e1, Int.natAbs_mul, Int.natAbs_ofNat, pow_zero, mul_one,
      Nat.mul_div_cancel _ hpos, Int.sign_mul, Int.sign_eq_one_of_pos hposi, mul_one,
      Int.sign_mul_natAbs]
    exact int_checked_eq i h1 h2

theorem floor_nat_div (x y : Nat) : ⌊(x : ℚ) / (y : ℚ)⌋ = ((x / y : Nat) : Int) := by
  rw [← Nat.floor_div_eq_div (α := ℚ) x y]
  exact (Int.natCast_floor_eq_floor (by positivity)).symm

theorem cast_value_eq (a : Dbl) :
    Int.sign a.m * ((a.m.natAbs * 2 ^ a.e.toNat / 2 ^ (-a.e).toNat : Nat) : Int)
      = truncRat a.toRat := by
  have hval : a.toRat = (a.m : ℚ) * (((2 ^ a.e.toNat : Nat) : ℚ) / ((2 ^ (-a.e).toNat : Nat) : ℚ)) := by
    have hp := two_pow_toNat_pos (-a.e)
    rw [Dbl.toRat, pow_toNat_split a.e]
    field_simp
  have hr : (0 : ℚ) < ((2 ^ a.e.toNat : Nat) : ℚ) / ((2 ^ (-a.e).toNat : Nat) : ℚ) :=
    div_pos (two_pow_toNat_pos _) (two_pow_toNat_pos _)
  have habs : ((a.m.natAbs * 2 ^ a.e.toNat : Nat) : ℚ) / ((2 ^ (-a.e).toNat : Nat) : ℚ)
      = |a.toRat| := by
    rw [hval, abs_mul, abs_of_pos hr, Nat.cast_mul, Nat.cast_natAbs, Int.cast_abs, mul_div_assoc]
  have hfl := floor_nat_div (a.m.natAbs * 2 ^ a.e.toNat) (2 ^ (-a.e).toNat)
  rw [habs] at hfl
  rw [← hfl]
  unfold truncRat
  rcases lt_trichotomy a.m 0 with hm | hm | hm
  · have hneg : a.toRat < 0 := by
      rw [hval]
      exact mul_neg_of_neg_of_pos (by exact_mod_cast hm) hr
    rw [if_neg (not_le.2 hneg), Int.sign_eq_neg_one_of_neg hm, abs_of_neg hneg, Int.floor_neg]
    ring
  · have hz : a.toRat = 0 := by simp [Dbl.toRat, hm]
    simp [hm, hz]
  · have hpos : 0 < a.toRat := by
      rw [hval]
      exact mul_pos (by exact_mod_cast hm) hr
    rw [if_pos hpos.le, Int.sign_eq_one_of_pos hm, abs_of_pos hpos]
    ring

theorem static_cast_int_eq (a : Dbl) : static_cast_int a = int_checked (truncRat a.toRat) := by
  unfold static_cast_int
  rw [cast_value_eq]

/-- The cast `static_cast<int>` truncates the value of the double toward zero. -/
theorem static_cast_int_trunc (a : Dbl) (t : Int) (h : static_cast_int a = some t) :
    t = truncRat a.toRat := by
  rw [static_cast_int_eq] at h
  exact (int_checked_some _ _ h).1

theorem canonical_one : Dbl.one.Canonical := by
  norm_num [Dbl.Canonical, Dbl.one]

theorem canonical_zero : Dbl.zero.Canonical := by
  norm_num [Dbl.Canonical, Dbl.zero]

theorem toRat_one : Dbl.one.toRat = 1 := by
  norm_num [Dbl.toRat, Dbl.one]

theorem toRat_zero : Dbl.zero.toRat = 0 := by
  norm_num [Dbl.toRat, Dbl.zero]

theorem ofInt_one : Dbl.ofInt 1 = Dbl.one := by decide

theorem ofInt_zero : Dbl.ofInt 0 = Dbl.zero := by decide

theorem natAbs_lt_of_int32 (i : Int) (h1 : -2147483648 ≤ i) (h2 : i ≤ 2147483647) :
    i.natAbs < 2 ^ 53 := by
  omega

theorem div_self_ofInt (w : Int) (hw : w ≠ 0) : Dbl.div (Dbl.ofInt w) (Dbl.ofInt w) = some Dbl.one := by
  apply div_exact _ _ _ (ofInt_m_ne_zero w hw) canonical_one
  have : (w : ℚ) ≠ 0 := by exact_mod_cast hw
  rw [toRat_ofInt, toRat_one, div_self this]

theorem mul_one_ofInt (v : Int) (hv : v.natAbs < 2 ^ 53) :
    Dbl.mul Dbl.one (Dbl.ofInt v) = some (Dbl.ofInt v) := by
  apply mul_exact _ _ _ (canonical_ofInt v hv)
  rw [toRat_one, one_mul]

theorem mul_ofInt_one (v : Int) (hv : v.natAbs < 2 ^ 53) :
    Dbl.mul (Dbl.ofInt v) Dbl.one = some (Dbl.ofInt v) := by
  apply mul_exact _ _ _ (canonical_ofInt v hv)
  rw [toRat_one, mul_one]

theorem sub_one_one : Dbl.sub Dbl.one (Dbl.ofInt 1) = some Dbl.zero := by
  apply sub_exact _ _ _ canonical_zero
  rw [toRat_ofInt, toRat_one, toRat_zero]; norm_num

theorem mul_zero_left (b : Dbl) : Dbl.mul Dbl.zero b = some Dbl.zero := by
  apply mul_exact _ _ _ canonical_zero
  rw [toRat_zero, zero_mul]

theorem div_zero_two : Dbl.div Dbl.zero (Dbl.ofInt 2) = some Dbl.zero := by
  apply div_exact _ _ _ (ofInt_m_ne_zero 2 (by norm_num)) canonical_zero
  rw [toRat_zero, zero_div]

theorem add_ofInt_zero (v : Int) (hv : v.natAbs < 2 ^ 53) :
    Dbl.add (Dbl.ofInt v) Dbl.zero = some (Dbl.ofInt v) := by
  apply add_exact _ _ _ (canonical_ofInt v hv)
  rw [toRat_zero, add_zero]

theorem qBound_of_mem (mn v mx : Int) (h1 : mn ≤ v) (h2 : v ≤ mx) : qBound mn v mx = v := by
  unfold qBound
  omega

/-- With a factor of exactly `1.0` the scroll bar keeps its value. -/
theorem adjust_scrollbar_one (sb : QAbstractSlider)
    (h1 : -2147483648 ≤ sb.value) (h2 : sb.value ≤ 2147483647) :
    ImageViewer.adjust_scrollbar sb Dbl.one = some (sb.setValue sb.value) := by
  have hv := natAbs_lt_of_int32 _ h1 h2
  simp [ImageViewer.adjust_scrollbar, mul_one_ofInt _ hv, sub_one_one, mul_zero_left, div_zero_two,
    add_ofInt_zero _ hv, static_cast_int_ofInt _ h1 h2]

theorem nat_le_of_rat_half (q k : Nat) (x : ℚ) (hx : (k : ℚ) ≤ x) (hq : |(q : ℚ) - x| ≤ 1 / 2) :
    k ≤ q := by
  rw [abs_le] at hq
  have : (k : ℚ) - 1 / 2 ≤ q := by linarith [hq.1]
  by_contra hc
  have h1 : q + 1 ≤ k := by omega
  have h2 : (q : ℚ) + 1 ≤ k := by exact_mod_cast h1
  linarith

theorem nat_le_of_rat_half_lt (q k : Nat) (x : ℚ) (hx : x < (k : ℚ)) (hq : |(q : ℚ) - x| ≤ 1 / 2) :
    q ≤ k := by
  rw [abs_le] at hq
  have : (q : ℚ) < k + 1 / 2 := by linarith [hq.2]
  by_contra hc
  have h1 : k + 1 ≤ q := by omega
  have h2 : (k : ℚ) + 1 ≤ q := by exact_mod_cast h1
  linarith

/-- Rounding in the normal range: the mantissa is the nearest integer to the
value scaled by `2 ^ (52 - l)`, renormalised when it reaches `2 ^ 53`. -/
theorem round_normal (num : Int) (den : Nat) (hnum : num ≠ 0) (hden : 0 < den) (l : Int)
    (hl1 : (2 : ℚ) ^ l ≤ ((num.natAbs : Nat) : ℚ) / den)
    (hl2 : ((num.natAbs : Nat) : ℚ) / den < (2 : ℚ) ^ (l + 1))
    (hlo : -1022 ≤ l) (hhi : l ≤ 1022) :
    ∃ q : Nat, q = rne (num.natAbs * 2 ^ (-(l - 52)).toNat) (den * 2 ^ (l - 52).toNat) ∧
      2 ^ 52 ≤ q ∧ q ≤ 2 ^ 53 ∧
      Dbl.round num den = some (if q = 2 ^ 53 then ⟨Int.sign num * ((2 ^ 52 : Nat) : Int), l - 52 + 1⟩
        else ⟨Int.sign num * (q : Int), l - 52⟩) := by
  have hn : 0 < num.natAbs := Int.natAbs_pos.2 hnum
  have hl := ilog2_eq _ _ hn hden l hl1 hl2
  have he : max (l - 52) (-1074) = l - 52 := by omega
  have hb := rne_bound_rat (num.natAbs * 2 ^ (-(l - 52)).toNat) (den * 2 ^ (l - 52).toNat)
    (scaled_den_pos _ _ hden)
  rw [scaled_ratio] at hb
  have hlow : ((2 ^ 52 : Nat) : ℚ) ≤ ((num.natAbs : Nat) : ℚ) / den * (2 : ℚ) ^ (-(l - 52)) := by
    have : ((2 ^ 52 : Nat) : ℚ) = (2 : ℚ) ^ l * (2 : ℚ) ^ (-(l - 52)) := by
      rw [← zpow_add₀ (by norm_num), show l + -(l - 52) = 52 by ring]
      norm_num
    rw [this]
    exact mul_le_mul_of_nonneg_right hl1 (two_zpow_pos _).le
  have hhigh : ((num.natAbs : Nat) : ℚ) / den * (2 : ℚ) ^ (-(l - 52)) < ((2 ^ 53 : Nat) : ℚ) := by
    have : ((2 ^ 53 : Nat) : ℚ) = (2 : ℚ) ^ (l + 1) * (2 : ℚ) ^ (-(l - 52)) := by
      rw [← zpow_add₀ (by norm_num), show l + 1 + -(l - 52) = 53 by ring]
      norm_num
    rw [this]
    exact mul_lt_mul_of_pos_right hl2 (two_zpow_pos _)
  refine ⟨_, rfl, nat_le_of_rat_half _ _ _ hlow hb, nat_le_of_rat_half_lt _ _ _ hhigh hb, ?_⟩
  unfold Dbl.round
  simp only [hnum, if_false, hl, he]
  split_ifs with h1 h2 h3
  · omega
  · rfl
  · omega
  · rfl

theorem sign_mul_natCast_natAbs (s : Int) (q : Nat) (hs : s ≠ 0) :
    (Int.sign s * (q : Int)).natAbs = q := by
  rcases lt_trichotomy s 0 with h | h | h
  · rw [Int.sign_eq_neg_one_of_neg h]; omega
  · exact absurd h hs
  · rw [Int.sign_eq_one_of_pos h]; omega

theorem sign_mul_natCast_sign (s : Int) (q : Nat) (hq : 0 < q) :
    Int.sign (Int.sign s * (q : Int)) = Int.sign s := by
  have : (0 : Int) < (q : Int) := by exact_mod_cast hq
  rw [Int.sign_mul, Int.sign_sign, Int.sign_eq_one_of_pos this, mul_one]

theorem ratio_sign_abs (num : Int) (den : Nat) :
    (num : ℚ) / den = ((Int.sign num : Int) : ℚ) * (((num.natAbs : Nat) : ℚ) / den) := by
  rw [← mul_div_assoc]
  congr 1
  have := Int.sign_mul_natAbs num
  have h2 := congrArg (Int.cast : Int → ℚ) this
  push_cast at h2
  rw [Nat.cast_natAbs, Int.cast_abs]
  exact h2.symm

/-- Properties of a rounding in the normal range. -/
theorem round_normal_props (num : Int) (den : Nat) (hnum : num ≠ 0) (hden : 0 < den) (l : Int)
    (hl1 : (2 : ℚ) ^ l ≤ ((num.natAbs : Nat) : ℚ) / den)
    (hl2 : ((num.natAbs : Nat) : ℚ) / den < (2 : ℚ) ^ (l + 1))
    (hlo : -1022 ≤ l) (hhi : l ≤ 1022) :
    ∃ d, Dbl.round num den = some d ∧ d.Canonical ∧ 2 ^ 52 ≤ d.m.natAbs ∧
      (d.e = l - 52 ∨ d.e = l - 51) ∧ Int.sign d.m = Int.sign num ∧
      |d.toRat - (num : ℚ) / den| ≤ (2 : ℚ) ^ (l - 53) := by
  obtain ⟨q, hq, q1, q2, hr⟩ := round_normal num den hnum hden l hl1 hl2 hlo hhi
  have hb := rne_bound_rat (num.natAbs * 2 ^ (-(l - 52)).toNat) (den * 2 ^ (l - 52).toNat)
    (scaled_den_pos _ _ hden)
  rw [scaled_ratio, ← hq] at hb
  have hval : ∀ d : Dbl, d.toRat = ((Int.sign num : Int) : ℚ) * ((q : ℚ) * (2 : ℚ) ^ (l - 52)) →
      |d.toRat - (num : ℚ) / den| ≤ (2 : ℚ) ^ (l - 53) := by
    intro d hd
    have hs : |((Int.sign num : Int) : ℚ)| = 1 := by
      rcases lt_trichotomy num 0 with h | h | h
      · rw [Int.sign_eq_neg_one_of_neg h]; norm_num
      · exact absurd h hnum
      · rw [Int.sign_eq_one_of_pos h]; norm_num
    have hp := two_zpow_pos (l - 52)
    have e1 : (2 : ℚ) ^ (-(l - 52)) = ((2 : ℚ) ^ (l - 52))⁻¹ := zpow_neg _ _
    have e2 : (2 : ℚ) ^ (l - 53) = (2 : ℚ) ^ (l - 52) * (1 / 2) := by
      rw [show l - 53 = (l - 52) + (-1) by ring, zpow_add₀ (by norm_num)]
      norm_num
    rw [hd, ratio_sign_abs num den, ← mul_sub, abs_mul, hs, one_mul, e2]
    have : (q : ℚ) * (2 : ℚ) ^ (l - 52) - ((num.natAbs : Nat) : ℚ) / den
        = (2 : ℚ) ^ (l - 52) * ((q : ℚ) - ((num.natAbs : Nat) : ℚ) / den * (2 : ℚ) ^ (-(l - 52))) := by
      rw [e1]; field_simp; ring
    rw [this, abs_mul, abs_of_pos hp]
    exact mul_le_mul_of_nonneg_left hb hp.le
  by_cases h53 : q = 2 ^ 53
  · rw [if_pos h53] at hr
    refine ⟨_, hr, ?_, ?_, Or.inr (by ring), ?_, ?_⟩
    · refine ⟨?_, ?_, ?_, ?_⟩ <;> simp only [sign_mul_natCast_natAbs _ _ hnum] <;> omega
    · simp only [sign_mul_natCast_natAbs _ _ hnum]; omega
    · exact sign_mul_natCast_sign _ _ (by norm_num)
    · apply hval
      simp only [Dbl.toRat, h53]
      rw [show l - 52 + 1 = (l - 52) + 1 by ring, zpow_add₀ (by norm_num)]
      push_cast
      ring
  · rw [if_neg h53] at hr
    refine ⟨_, hr, ?_, ?_, Or.inl rfl, ?_, ?_⟩
    · refine ⟨?_, ?_, ?_, ?_⟩ <;> simp only [sign_mul_natCast_natAbs _ _ hnum] <;> omega
    · simp only [sign_mul_natCast_natAbs _ _ hnum]; omega
    · exact sign_mul_natCast_sign _ _ (by omega)
    · apply hval
      simp only [Dbl.toRat]
      push_cast
      ring

/-- Dividing the value by four lowers the exponent of its rounding by two. -/
theorem round_scale4 (num : Int) (den : Nat) (hnum : num ≠ 0) (hden : 0 < den) (l : Int)
    (hl1 : (2 : ℚ) ^ l ≤ ((num.natAbs : Nat) : ℚ) / den)
    (hl2 : ((num.natAbs : Nat) : ℚ) / den < (2 : ℚ) ^ (l + 1))
    (hlo : -1020 ≤ l) (hhi : l ≤ 1022) (d : Dbl) (h : Dbl.round num den = some d) :
    Dbl.round num (4 * den) = some ⟨d.m, d.e - 2⟩ := by
  obtain ⟨q, hq, -, -, hr⟩ := round_normal num den hnum hden l hl1 hl2 (by omega) hhi
  have hden4 : 0 < 4 * den := by omega
  have e4 : (((4 * den : Nat) : ℚ)) = 4 * (den : ℚ) := by push_cast; ring
  have hdq : (0 : ℚ) < den := by exact_mod_cast hden
  have r4 : ((num.natAbs : Nat) : ℚ) / ((4 * den : Nat) : ℚ)
      = ((num.natAbs : Nat) : ℚ) / den * (2 : ℚ) ^ (-2 : Int) := by
    rw [e4]
    have : (2 : ℚ) ^ (-2 : Int) = 1 / 4 := by norm_num
    rw [this]; field_simp; left; ring
  have hl1' : (2 : ℚ) ^ (l - 2) ≤ ((num.natAbs : Nat) : ℚ) / ((4 * den : Nat) : ℚ) := by
    rw [r4, show l - 2 = l + (-2) by ring, zpow_add₀ (by norm_num)]
    exact mul_le_mul_of_nonneg_right hl1 (two_zpow_pos _).le
  have hl2' : ((num.natAbs : Nat) : ℚ) / ((4 * den : Nat) : ℚ) < (2 : ℚ) ^ (l - 2 + 1) := by
    rw [r4, show l - 2 + 1 = (l + 1) + (-2) by ring, zpow_add₀ (by norm_num)]
    exact mul_lt_mul_of_pos_right hl2 (two_zpow_pos _)
  obtain ⟨q', hq', -, -, hr'⟩ :=
    round_normal num (4 * den) hnum hden4 (l - 2) hl1' hl2' (by omega) (by omega)
  have hqq : q' = q := by
    rw [hq, hq']
    apply rne_congr_rat _ _ _ _ (scaled_den_pos _ _ hden4) (scaled_den_pos _ _ hden)
    rw [scaled_ratio, scaled_ratio, r4, mul_assoc, ← zpow_add₀ (by norm_num)]
    congr 2
    ring
  rw [hr'] 
  rw [hr] at h
  simp only [Option.some.injEq] at h
  rw [← h, hqq]
  split_ifs
  · simp only [Option.some.injEq, Dbl.mk.injEq, true_and]; ring
  · simp only [Option.some.injEq, Dbl.mk.injEq, true_and]; ring

theorem ilog2_bounds (n d : Nat) (hn : 0 < n) (hd : 0 < d) (hn2 : n < 2 ^ 40) (hd2 : d < 2 ^ 40) :
    -41 ≤ ilog2 n d ∧ ilog2 n d ≤ 40 := by
  obtain ⟨a, b⟩ := ilog2_spec n d hn hd
  have hnq : (1 : ℚ) ≤ n := by exact_mod_cast hn
  have hdq : (1 : ℚ) ≤ d := by exact_mod_cast hd
  have hn2q : (n : ℚ) < (2 : ℚ) ^ (40 : Int) := by
    have : ((2 ^ 40 : Nat) : ℚ) = (2 : ℚ) ^ (40 : Int) := by norm_num
    rw [← this]; exact_mod_cast hn2
  have hd2q : (d : ℚ) < (2 : ℚ) ^ (40 : Int) := by
    have : ((2 ^ 40 : Nat) : ℚ) = (2 : ℚ) ^ (40 : Int) := by norm_num
    rw [← this]; exact_mod_cast hd2
  have hdpos : (0 : ℚ) < d := by linarith
  have up : (n : ℚ) / d < (2 : ℚ) ^ (40 : Int) := by
    rw [div_lt_iff₀ hdpos]
    have := two_zpow_pos 40
    nlinarith
  have lo : (2 : ℚ) ^ (-40 : Int) < (n : ℚ) / d := by
    rw [lt_div_iff₀ hdpos, zpow_neg, inv_mul_lt_iff₀ (two_zpow_pos 40)]
    have := two_zpow_pos 40
    nlinarith
  have c1 := (zpow_two_lt_iff _ _).1 (lt_of_le_of_lt a up)
  have c2 := (zpow_two_lt_iff _ _).1 (lt_trans lo b)
  omega

theorem toRat_shift2 (x : Dbl) : (Dbl.mk x.m (x.e - 2)).toRat = x.toRat / 4 := by
  simp only [Dbl.toRat]
  rw [zpow_sub₀ (by norm_num)]
  norm_num
  ring

/-- The computation `(scale / 100.0) / 4.0` yields the double nearest to `scale / 400`. -/
theorem quarter_chain (c : Int) (h1 : -2147483648 ≤ c) (h2 : c ≤ 2147483647) :
    ∃ sf g, Dbl.div (Dbl.ofInt c) (Dbl.ofInt 100) = some sf ∧
      Dbl.div sf (Dbl.ofInt 4) = some g ∧ Dbl.div (Dbl.ofInt c) (Dbl.ofInt 400) = some g := by
  have h100 : (Dbl.ofInt 100).m ≠ 0 := ofInt_m_ne_zero 100 (by norm_num)
  have h400 : (Dbl.ofInt 400).m ≠ 0 := ofInt_m_ne_zero 400 (by norm_num)
  have h4 : (Dbl.ofInt 4).m ≠ 0 := ofInt_m_ne_zero 4 (by norm_num)
  have r100 : Dbl.div (Dbl.ofInt c) (Dbl.ofInt 100) = Dbl.round c 100 := by
    apply div_eq_round _ _ h100 _ _ (by norm_num)
    rw [toRat_ofInt, toRat_ofInt]; norm_num
  have r400 : Dbl.div (Dbl.ofInt c) (Dbl.ofInt 400) = Dbl.round c (4 * 100) := by
    apply div_eq_round _ _ h400 _ _ (by norm_num)
    rw [toRat_ofInt, toRat_ofInt]; norm_num
  by_cases hc : c = 0
  · subst hc
    refine ⟨Dbl.zero, Dbl.zero, ?_, ?_, ?_⟩
    · rw [r100]; rfl
    · apply div_exact _ _ _ h4 canonical_zero
      rw [toRat_zero, zero_div]
    · rw [r400]; rfl
  · have hn : 0 < c.natAbs := Int.natAbs_pos.2 hc
    obtain ⟨l1, l2⟩ := ilog2_spec c.natAbs 100 hn (by norm_num)
    obtain ⟨b1, b2⟩ := ilog2_bounds c.natAbs 100 hn (by norm_num) (by omega) (by norm_num)
    obtain ⟨d, hd, hcan, hnorm, he, -, -⟩ :=
      round_normal_props c 100 hc (by norm_num) _ l1 l2 (by omega) (by omega)
    refine ⟨d, ⟨d.m, d.e - 2⟩, r100.trans hd, ?_, ?_⟩
    · apply div_exact _ _ _ h4
      · obtain ⟨k1, k2, k3, k4⟩ := hcan
        refine ⟨k1, ?_, ?_, ?_⟩
        · simp only; omega
        · simp only; omega
        · simp only; intro hh; omega
      · rw [toRat_shift2, toRat_ofInt]; norm_num
    · rw [r400]
      exact round_scale4 c 100 hc (by norm_num) _ l1 l2 (by omega) (by omega) d hd

/-- The quotient `scale / 400` is the double `1.0` exactly for `scale = 400`. -/
theorem div_400_eq_one_iff (c : Int) (h1 : -2147483648 ≤ c) (h2 : c ≤ 2147483647) :
    Dbl.div (Dbl.ofInt c) (Dbl.ofInt 400) = some Dbl.one ↔ c = 400 := by
  have h400 : (Dbl.ofInt 400).m ≠ 0 := ofInt_m_ne_zero 400 (by norm_num)
  constructor
  · intro h
    have r400 : Dbl.div (Dbl.ofInt c) (Dbl.ofInt 400) = Dbl.round c 400 := by
      apply div_eq_round _ _ h400 _ _ (by norm_num)
      rw [toRat_ofInt, toRat_ofInt]; norm_num
    rw [r400] at h
    by_cases hc : c = 0
    · subst hc
      have : Dbl.round 0 400 = some ⟨0, -1074⟩ := rfl
      rw [this] at h
      exact absurd h (by decide)
    · have hn : 0 < c.natAbs := Int.natAbs_pos.2 hc
      obtain ⟨l1, l2⟩ := ilog2_spec c.natAbs 400 hn (by norm_num)
      obtain ⟨b1, b2⟩ := ilog2_bounds c.natAbs 400 hn (by norm_num) (by omega) (by norm_num)
      obtain ⟨d, hd, -, -, he, -, hb⟩ :=
        round_normal_props c 400 hc (by norm_num) _ l1 l2 (by omega) (by omega)
      rw [hd] at h
      simp only [Option.some.injEq] at h
      subst h
      have hl : ilog2 c.natAbs 400 ≤ 0 := by
        simp only [Dbl.one] at he
        omega
      rw [toRat_one] at hb
      have hp : (2 : ℚ) ^ (ilog2 c.natAbs 400 - 53) ≤ (2 : ℚ) ^ (-53 : Int) :=
        (zpow_two_le_iff _ _).2 (by omega)
      have hb2 := le_trans hb hp
      rw [abs_le] at hb2
      have e53 : (2 : ℚ) ^ (-53 : Int) = 1 / 9007199254740992 := by norm_num
      rw [e53] at hb2
      obtain ⟨u1, u2⟩ := hb2
      have v1 : (c : ℚ) < 401 := by
        have : (c : ℚ) / ((400 : Nat) : ℚ) < 401 / 400 := by linarith
        rw [div_lt_div_iff₀ (by norm_num) (by norm_num)] at this
        push_cast at this
        linarith
      have v2 : (399 : ℚ) < c := by
        have : (399 : ℚ) / 400 < (c : ℚ) / ((400 : Nat) : ℚ) := by linarith
        rw [div_lt_div_iff₀ (by norm_num) (by norm_num)] at this
        push_cast at this
        linarith
      have w1 : c < 401 := by exact_mod_cast v1
      have w2 : 399 < c := by exact_mod_cast v2
      omega
  · intro h
    subst h
    apply div_exact _ _ _ h400 canonical_one
    rw [toRat_ofInt, toRat_one]; norm_num


/-! ## Lemmas on the pixel loops -/

theorem gamma_pixel_eq (qPow : Dbl → Dbl → Option Dbl) (gamma : Dbl) (img : QImage) (x y : Nat) :
    gamma_pixel qPow gamma img x y
      = (gamma_rgb qPow gamma (img.pixel x y)).map (fun v => img.setPixel x y v) := by
  unfold gamma_pixel gamma_rgb
  dsimp only
  cases gamma_channel qPow gamma (qRed (img.pixel x y)) <;>
    cases gamma_channel qPow gamma (qGreen (img.pixel x y)) <;>
    cases gamma_channel qPow gamma (qBlue (img.pixel x y)) <;> rfl

/-- One pass of the loop body at a pixel inside the image, on stored words. -/
theorem gamma_pixel_word (qPow : Dbl → Dbl → Option Dbl) (gamma : Dbl) (img : QImage) (x y : Nat)
    (hx : x < img.width) (hy : y < img.height) :
    gamma_pixel qPow gamma img x y
      = (gamma_word qPow gamma img.format img.colortable (img.pix x y)).map (fun w =>
          { img with pix := fun x1 y1 => if x1 = x ∧ y1 = y then w else img.pix x1 y1 }) := by
  have hvalid : img.valid x y = true := by simp [QImage.valid, hx, hy]
  rw [gamma_pixel_eq, QImage.pixel, hvalid]
  simp only [if_true, gamma_word, Option.map_map]
  congr 1
  funext v
  simp [QImage.setPixel, hvalid]

theorem row_fold (qPow : Dbl → Dbl → Option Dbl) (gamma : Dbl) (img : QImage) (y : Nat)
    (hy : y < img.height) (n : Nat) (hn : n ≤ img.width) (out : QImage) :
    (List.range n).foldlM (fun m x => gamma_pixel qPow gamma m x y) img = some out ↔
      ((∀ x, x < n → ∃ v, gamma_word qPow gamma img.format img.colortable (img.pix x y) = some v) ∧
        out = rowUpdate (gamma_word qPow gamma img.format img.colortable) img y n) := by
  induction n generalizing out with
  | zero =>
    simp only [List.range_zero, List.foldlM_nil, Option.pure_def, Option.some.injEq]
    constructor
    · intro h
      subst h
      refine ⟨fun x hx => absurd hx (by omega), ?_⟩
      simp [rowUpdate]
    · rintro ⟨-, h⟩
      rw [h]; simp [rowUpdate]
  | succ n ih =>
    rw [List.range_succ, List.foldlM_append]
    have ihn := ih (by omega)
    have hstep : gamma_pixel qPow gamma
          (rowUpdate (gamma_word qPow gamma img.format img.colortable) img y n) n y
        = (gamma_word qPow gamma img.format img.colortable (img.pix n y)).map (fun _ =>
            rowUpdate (gamma_word qPow gamma img.format img.colortable) img y (n + 1)) := by
      rw [gamma_pixel_word _ _ _ _ _ (by simpa [rowUpdate] using (by omega : n < img.width))
        (by simpa [rowUpdate] using hy)]
      have hp : (rowUpdate (gamma_word qPow gamma img.format img.colortable) img y n).pix n y
          = img.pix n y := by simp [rowUpdate]
      rw [hp]
      simp only [rowUpdate]
      cases hv : gamma_word qPow gamma img.format img.colortable (img.pix n y) with
      | none => rfl
      | some v =>
        simp only [Option.map_some', Option.some.injEq]
        congr 1
        funext x1 y1
        by_cases c1 : y1 = y <;> by_cases c2 : x1 = n
        · subst c1; subst c2; simp [hv]
        · subst c1
          by_cases c3 : x1 < n
          · have : x1 < n + 1 := by omega
            simp [c2, c3, this]
          · have : ¬ x1 < n + 1 := by omega
            simp [c2, c3, this]
        · simp [c1]
        · simp [c1]
    constructor
    · intro h
      cases hfold : (List.range n).foldlM (fun m x => gamma_pixel qPow gamma m x y) img with
      | none => rw [hfold] at h; simp at h
      | some mid =>
        rw [hfold] at h
        obtain ⟨hall, hmid⟩ := (ihn mid).1 hfold
        subst hmid
        simp only [Option.bind_eq_bind, Option.some_bind, List.foldlM_cons, List.foldlM_nil] at h
        rw [hstep] at h
        cases hv : gamma_word qPow gamma img.format img.colortable (img.pix n y) with
        | none => rw [hv] at h; simp at h
        | some v =>
          rw [hv] at h
          simp only [Option.map_some', Option.bind_eq_bind, Option.some_bind, Option.pure_def,
            Option.some.injEq] at h
          refine ⟨?_, h.symm⟩
          intro x hx
          by_cases hxn : x = n
          · subst hxn; exact ⟨v, hv⟩
          · exact hall x (by omega)
    · rintro ⟨hall, hout⟩
      have hmid := (ihn (rowUpdate (gamma_word qPow gamma img.format img.colortable) img y n)).2
        ⟨fun x hx => hall x (by omega), rfl⟩
      rw [hmid]
      simp only [Option.bind_eq_bind, Option.some_bind, List.foldlM_cons, List.foldlM_nil]
      rw [hstep]
      obtain ⟨v, hv⟩ := hall n (by omega)
      rw [hv, hout]
      rfl

theorem rowUpdate_imgUpdate (f : Nat → Option Nat) (img : QImage) (k : Nat) :
    rowUpdate f (imgUpdate f img k) k (imgUpdate f img k).width = imgUpdate f img (k + 1) := by
  simp only [rowUpdate, imgUpdate]
  congr 1
  funext x1 y1
  by_cases c1 : y1 = k
  · subst c1
    by_cases c2 : x1 < img.width
    · simp [c2]
    · simp [c2]
  · have e : (y1 < k + 1) = (y1 < k) := by
      apply propext; constructor <;> intro h <;> omega
    simp [c1, e]

theorem img_fold (qPow : Dbl → Dbl → Option Dbl) (gamma : Dbl) (img : QImage) (k : Nat)
    (hk : k ≤ img.height) (out : QImage) :
    (List.range k).foldlM
        (fun m y => (List.range m.width).foldlM (fun m x => gamma_pixel qPow gamma m x y) m) img
      = some out ↔
      ((∀ y, y < k → ∀ x, x < img.width →
          ∃ v, gamma_word qPow gamma img.format img.colortable (img.pix x y) = some v) ∧
        out = imgUpdate (gamma_word qPow gamma img.format img.colortable) img k) := by
  induction k generalizing out with
  | zero =>
    simp only [List.range_zero, List.foldlM_nil, Option.pure_def, Option.some.injEq]
    constructor
    · intro h
      subst h
      refine ⟨fun y hy => absurd hy (by omega), ?_⟩
      simp [imgUpdate]
    · rintro ⟨-, h⟩
      rw [h]; simp [imgUpdate]
  | succ k ih =>
    rw [List.range_succ, List.foldlM_append]
    have ihk := ih (by omega)
    have hrow := fun o =>
      row_fold qPow gamma (imgUpdate (gamma_word qPow gamma img.format img.colortable) img k) k
        (by simpa [imgUpdate] using hk)
        (imgUpdate (gamma_word qPow gamma img.format img.colortable) img k).width le_rfl o
    have hfmt : (imgUpdate (gamma_word qPow gamma img.format img.colortable) img k).format
        = img.format := rfl
    have hct : (imgUpdate (gamma_word qPow gamma img.format img.colortable) img k).colortable
        = img.colortable := rfl
    rw [hfmt, hct] at hrow
    have hpix : ∀ x, (imgUpdate (gamma_word qPow gamma img.format img.colortable) img k).pix x k
        = img.pix x k := by
      intro x; simp [imgUpdate]
    constructor
    · intro h
      cases hfold : (List.range k).foldlM
          (fun m y => (List.range m.width).foldlM (fun m x => gamma_pixel qPow gamma m x y) m)
          img with
      | none => rw [hfold] at h; simp at h
      | some mid =>
        rw [hfold] at h
        obtain ⟨hall, hmid⟩ := (ihk mid).1 hfold
        subst hmid
        simp only [Option.bind_eq_bind, Option.some_bind, List.foldlM_cons, List.foldlM_nil] at h
        cases hr : (List.range
            (imgUpdate (gamma_word qPow gamma img.format img.colortable) img k).width).foldlM
            (fun m x => gamma_pixel qPow gamma m x k)
            (imgUpdate (gamma_word qPow gamma img.format img.colortable) img k) with
        | none => rw [hr] at h; simp at h
        | some o =>
          rw [hr] at h
          simp only [Option.bind_eq_bind, Option.some_bind, Option.pure_def,
            Option.some.injEq] at h
          obtain ⟨hall2, ho⟩ := (hrow o).1 hr
          refine ⟨?_, ?_⟩
          · intro y hy x hx
            by_cases hyk : y = k
            · subst hyk
              have := hall2 x (by simpa [imgUpdate] using hx)
              rwa [hpix] at this
            · exact hall y (by omega) x hx
          · rw [← h, ho, rowUpdate_imgUpdate]
    · rintro ⟨hall, hout⟩
      have hmid := (ihk (imgUpdate (gamma_word qPow gamma img.format img.colortable) img k)).2
        ⟨fun y hy => hall y (by omega), rfl⟩
      rw [hmid]
      simp only [Option.bind_eq_bind, Option.some_bind, List.foldlM_cons, List.foldlM_nil]
      have := (hrow (imgUpdate (gamma_word qPow gamma img.format img.colortable) img (k + 1))).2
        ⟨fun x hx => by rw [hpix]; exact hall k (by omega) x (by simpa [imgUpdate] using hx),
          (rowUpdate_imgUpdate _ _ _).symm⟩
      rw [this, hout]
      rfl

/-- Characterisation of `gamma_correction`: it is defined exactly when every
channel computation of every pixel is, and then replaces each stored word. -/
theorem gamma_correction_iff (qPow : Dbl → Dbl → Option Dbl) (img : QImage) (gamma : Dbl)
    (out : QImage) :
    gamma_correction qPow img gamma = some out ↔
      ((∀ y, y < img.height → ∀ x, x < img.width →
          ∃ v, gamma_word qPow gamma img.format img.colortable (img.pix x y) = some v) ∧
        out = imgUpdate (gamma_word qPow gamma img.format img.colortable) img img.height) :=
  img_fold qPow gamma img img.height le_rfl out

theorem pixel_eq_pix (img : QImage) (x y : Nat) (hx : x < img.width) (hy : y < img.height) :
    img.pixel x y = QImage.pixelOf img.format img.colortable (img.pix x y) := by
  simp [QImage.pixel, QImage.valid, hx, hy]

theorem imgUpdate_pixel (f : Nat → Option Nat) (img : QImage) (x y : Nat) (hx : x < img.width)
    (hy : y < img.height) (v : Nat) (hv : f (img.pix x y) = some v) :
    (imgUpdate f img img.height).pixel x y = QImage.pixelOf img.format img.colortable v := by
  simp [QImage.pixel, QImage.valid, imgUpdate, hx, hy, hv]

/-- The word left at a pixel, in terms of the `QRgb` computed for it. -/
theorem gamma_word_some (qPow : Dbl → Dbl → Option Dbl) (gamma : Dbl) (img : QImage) (x y : Nat)
    (hx : x < img.width) (hy : y < img.height) (w : Nat) :
    gamma_word qPow gamma img.format img.colortable (img.pix x y) = some w ↔
      ∃ v, gamma_rgb qPow gamma (img.pixel x y) = some v ∧
        w = QImage.storeOf img.format img.colortable (img.pix x y) v := by
  rw [pixel_eq_pix _ _ _ hx hy]
  unfold gamma_word
  constructor
  · intro h
    obtain ⟨v, hv, rfl⟩ := Option.map_eq_some'.1 h
    exact ⟨v, hv, rfl⟩
  · rintro ⟨v, hv, rfl⟩
    rw [hv]; rfl

/-- A `QRgb` with alpha `0xff` written to a 32-bit image is read back unchanged. -/
theorem pixelOf_storeOf_rgb32 (format : QImage.Format) (h : format.rgb32 = true)
    (colortable : List Nat) (w v : Nat) (h1 : 4278190080 ≤ v) (h2 : v < 4294967296) :
    QImage.pixelOf format colortable (QImage.storeOf format colortable w v) = v := by
  cases format <;> simp [QImage.Format.rgb32] at h <;> simp only [QImage.pixelOf, QImage.storeOf]
  omega

/-- A `QRgb` with alpha `0xff` written to a palettised image is rejected: it is
no index into a colour table. -/
theorem storeOf_indexed (format : QImage.Format) (h : format.indexed = true)
    (colortable : List Nat) (hc : colortable.length ≤ 2147483647) (w v : Nat)
    (h1 : 4278190080 ≤ v) :
    QImage.storeOf format colortable w v = w := by
  cases format <;> simp [QImage.Format.indexed] at h <;> simp only [QImage.storeOf]
  · rw [if_pos (by omega)]
  · rw [if_pos (by omega)]
  · rw [if_pos (by omega)]

theorem format_cases (format : QImage.Format) : format.indexed = true ∨ format.rgb32 = true := by
  cases format <;> simp [QImage.Format.indexed, QImage.Format.rgb32]

set_option maxRecDepth 1000000 in
set_option exponentiation.threshold 2000 in
/-- In binary64, `(c / 255.0) * 255` truncates back to `c` for every channel value. -/
theorem unit_channel_eq : ∀ c, c < 256 → unit_channel c = some (c : Int) := by
  decide

theorem qRed_lt (p : Nat) : qRed p < 256 := by unfold qRed; omega

theorem qGreen_lt (p : Nat) : qGreen p < 256 := by unfold qGreen; omega

theorem qBlue_lt (p : Nat) : qBlue p < 256 := by unfold qBlue; omega

theorem gamma_channel_one (qPow : Dbl → Dbl → Option Dbl)
    (hpow : ∀ x, qPow x Dbl.one = some x) (c : Nat) (hc : c < 256) :
    gamma_channel qPow Dbl.one c = some (c : Int) := by
  have h := unit_channel_eq c hc
  unfold unit_channel at h
  unfold gamma_channel
  cases hx : Dbl.div (Dbl.ofInt c) (Dbl.ofInt 255) with
  | none => rw [hx] at h; simp at h
  | some x =>
    rw [hx] at h
    simp only [Option.bind_eq_bind, Option.some_bind, hpow] at h ⊢
    cases hz : Dbl.mul x (Dbl.ofInt 255) with
    | none => rw [hz] at h; simp at h
    | some z =>
      rw [hz] at h
      simp only [Option.some_bind] at h ⊢
      rw [h]
      simp only [Option.some_bind, Option.pure_def, Option.some.injEq]
      unfold qBound
      omega

theorem qRgb_natCast (r g b : Nat) (hr : r < 256) (hg : g < 256) (hb : b < 256) :
    qRgb (r : Int) (g : Int) (b : Int) = 4278190080 + r * 65536 + g * 256 + b := by
  unfold qRgb
  have e1 : ((r : Int) % 256).toNat = r := by omega
  have e2 : ((g : Int) % 256).toNat = g := by omega
  have e3 : ((b : Int) % 256).toNat = b := by omega
  rw [e1, e2, e3]

/-- Every `QRgb` built by `qRgb` has alpha `0xff` and fits 32 bits. -/
theorem qRgb_range (r g b : Int) : 4278190080 ≤ qRgb r g b ∧ qRgb r g b < 4294967296 := by
  unfold qRgb
  omega

/-- With `gamma = 1.0` the computed `QRgb` keeps the colour and is opaque. -/
theorem gamma_rgb_one (qPow : Dbl → Dbl → Option Dbl) (hpow : ∀ x, qPow x Dbl.one = some x)
    (p : Nat) :
    gamma_rgb qPow Dbl.one p = some (4278190080 + qRed p * 65536 + qGreen p * 256 + qBlue p) := by
  unfold gamma_rgb
  rw [gamma_channel_one qPow hpow _ (qRed_lt p), gamma_channel_one qPow hpow _ (qGreen_lt p),
    gamma_channel_one qPow hpow _ (qBlue_lt p)]
  simp only [Option.bind_eq_bind, Option.some_bind, Option.pure_def, Option.some.injEq]
  exact qRgb_natCast _ _ _ (qRed_lt p) (qGreen_lt p) (qBlue_lt p)

theorem opaque_channels (p : Nat) :
    qRed (4278190080 + qRed p * 65536 + qGreen p * 256 + qBlue p) = qRed p ∧
    qGreen (4278190080 + qRed p * 65536 + qGreen p * 256 + qBlue p) = qGreen p ∧
    qBlue (4278190080 + qRed p * 65536 + qGreen p * 256 + qBlue p) = qBlue p ∧
    qAlpha (4278190080 + qRed p * 65536 + qGreen p * 256 + qBlue p) = 255 := by
  unfold qRed qGreen qBlue qAlpha
  omega

theorem opaque_range (p : Nat) :
    4278190080 ≤ 4278190080 + qRed p * 65536 + qGreen p * 256 + qBlue p ∧
    4278190080 + qRed p * 65536 + qGreen p * 256 + qBlue p < 4294967296 := by
  unfold qRed qGreen qBlue
  omega

theorem opaque_eq_iff (p : Nat) (hp : p < 4294967296) :
    4278190080 + qRed p * 65536 + qGreen p * 256 + qBlue p = p ↔ qAlpha p = 255 := by
  unfold qRed qGreen qBlue qAlpha
  omega

theorem gamma_word_one (qPow : Dbl → Dbl → Option Dbl) (hpow : ∀ x, qPow x Dbl.one = some x)
    (format : QImage.Format) (colortable : List Nat) (w : Nat) :
    gamma_word qPow Dbl.one format colortable w
      = some (QImage.storeOf format colortable w
          (4278190080 + qRed (QImage.pixelOf format colortable w) * 65536
            + qGreen (QImage.pixelOf format colortable w) * 256
            + qBlue (QImage.pixelOf format colortable w))) := by
  unfold gamma_word
  rw [gamma_rgb_one qPow hpow]
  rfl

/-- The result of `gamma_correction` with `gamma = 1.0`. -/
theorem gamma_correction_one (qPow : Dbl → Dbl → Option Dbl)
    (hpow : ∀ x, qPow x Dbl.one = some x) (img : QImage) :
    gamma_correction qPow img Dbl.one
      = some (imgUpdate (gamma_word qPow Dbl.one img.format img.colortable) img img.height) :=
  (gamma_correction_iff qPow img Dbl.one _).2
    ⟨fun y _ x _ => ⟨_, gamma_word_one qPow hpow _ _ (img.pix x y)⟩, rfl⟩

/-- With `gamma = 1.0` a pixel of a 32-bit image keeps its colour and becomes opaque. -/
theorem unit_pixel (qPow : Dbl → Dbl → Option Dbl) (hpow : ∀ x, qPow x Dbl.one = some x)
    (img : QImage) (h32 : img.format.rgb32 = true) (x y : Nat) (hx : x < img.width)
    (hy : y < img.height) :
    (imgUpdate (gamma_word qPow Dbl.one img.format img.colortable) img img.height).pixel x y
      = 4278190080 + qRed (img.pixel x y) * 65536 + qGreen (img.pixel x y) * 256
        + qBlue (img.pixel x y) := by
  rw [imgUpdate_pixel _ _ _ _ hx hy _ (gamma_word_one qPow hpow _ _ _), pixel_eq_pix img x y hx hy]
  obtain ⟨a, b⟩ := opaque_range (QImage.pixelOf img.format img.colortable (img.pix x y))
  exact pixelOf_storeOf_rgb32 _ h32 _ _ _ a b

/-- A pixel of a palettised image is left as it was by `gamma_correction`: every
`setPixel` it issues is rejected. -/
theorem indexed_pixel (qPow : Dbl → Dbl → Option Dbl) (gamma : Dbl) (img : QImage)
    (hidx : img.format.indexed = true) (x y : Nat) (hx : x < img.width) (hy : y < img.height)
    (w : Nat) (hw : gamma_word qPow gamma img.format img.colortable (img.pix x y) = some w) :
    (imgUpdate (gamma_word qPow gamma img.format img.colortable) img img.height).pixel x y
      = img.pixel x y := by
  rw [imgUpdate_pixel _ _ _ _ hx hy _ hw, pixel_eq_pix img x y hx hy]
  unfold gamma_word at hw
  obtain ⟨v, hv, rfl⟩ := Option.map_eq_some'.1 hw
  have hr : 4278190080 ≤ v := by
    unfold gamma_rgb at hv
    simp only [Option.bind_eq_bind, Option.bind_eq_some, Option.pure_def, Option.some.injEq] at hv
    obtain ⟨r, -, g, -, b, -, rfl⟩ := hv
    exact (qRgb_range r g b).1
  rw [storeOf_indexed _ hidx _ img.colorCount_le _ _ hr]

/-! ## Claim C1: gamma_correction truncates -/

theorem gamma_channel_some (qPow : Dbl → Dbl → Option Dbl) (gamma : Dbl) (c : Nat) (r : Int)
    (h : gamma_channel qPow gamma c = some r) :
    0 ≤ r ∧ r ≤ 255 ∧ ChannelTruncated qPow gamma c r.toNat := by
  unfold gamma_channel at h
  cases hx : Dbl.div (Dbl.ofInt c) (Dbl.ofInt 255) with
  | none => rw [hx] at h; simp at h
  | some x =>
    cases hp : qPow x gamma with
    | none => rw [hx] at h; simp [hp] at h
    | some p =>
      cases hz : Dbl.mul p (Dbl.ofInt 255) with
      | none => rw [hx] at h; simp [hp, hz] at h
      | some z =>
        cases ht : static_cast_int z with
        | none => rw [hx] at h; simp [hp, hz, ht] at h
        | some t =>
          rw [hx] at h
          simp only [Option.bind_eq_bind, Option.some_bind, hp, hz, ht, Option.pure_def,
            Option.some.injEq] at h
          have hb : 0 ≤ r ∧ r ≤ 255 := by
            rw [← h]; unfold qBound; omega
          refine ⟨hb.1, hb.2, x, p, z, hx, hp, hz, by simp [ht], ?_⟩
          rw [Int.toNat_of_nonneg hb.1, ← h, static_cast_int_trunc z t ht]

theorem qRgb_channels (r g b : Int) (hr : 0 ≤ r ∧ r ≤ 255) (hg : 0 ≤ g ∧ g ≤ 255)
    (hb : 0 ≤ b ∧ b ≤ 255) :
    qRed (qRgb r g b) = r.toNat ∧ qGreen (qRgb r g b) = g.toNat ∧ qBlue (qRgb r g b) = b.toNat ∧
      qAlpha (qRgb r g b) = 255 := by
  unfold qRed qGreen qBlue qAlpha qRgb
  have e1 : (r % 256).toNat = r.toNat := by omega
  have e2 : (g % 256).toNat = g.toNat := by omega
  have e3 : (b % 256).toNat = b.toNat := by omega
  rw [e1, e2, e3]
  omega

theorem gamma_rgb_some (qPow : Dbl → Dbl → Option Dbl) (gamma : Dbl) (p v : Nat)
    (h : gamma_rgb qPow gamma p = some v) :
    ChannelTruncated qPow gamma (qRed p) (qRed v) ∧
    ChannelTruncated qPow gamma (qGreen p) (qGreen v) ∧
    ChannelTruncated qPow gamma (qBlue p) (qBlue v) ∧ qAlpha v = 255 := by
  unfold gamma_rgb at h
  cases hr : gamma_channel qPow gamma (qRed p) with
  | none => simp [hr] at h
  | some r =>
    cases hg : gamma_channel qPow gamma (qGreen p) with
    | none => simp [hr, hg] at h
    | some g =>
      cases hb : gamma_channel qPow gamma (qBlue p) with
      | none => simp [hr, hg, hb] at h
      | some b =>
        simp only [hr, hg, hb, Option.bind_eq_bind, Option.some_bind, Option.pure_def,
          Option.some.injEq] at h
        obtain ⟨r1, r2, r3⟩ := gamma_channel_some _ _ _ _ hr
        obtain ⟨g1, g2, g3⟩ := gamma_channel_some _ _ _ _ hg
        obtain ⟨b1, b2, b3⟩ := gamma_channel_some _ _ _ _ hb
        obtain ⟨c1, c2, c3, c4⟩ := qRgb_channels r g b ⟨r1, r2⟩ ⟨g1, g2⟩ ⟨b1, b2⟩
        rw [← h, c1, c2, c3, c4]
        exact ⟨r3, g3, b3, rfl⟩

theorem gamma_rgb_defined (qPow : Dbl → Dbl → Option Dbl) (gamma : Dbl) (p : Nat)
    (h1 : (gamma_channel qPow gamma (qRed p)).isSome)
    (h2 : (gamma_channel qPow gamma (qGreen p)).isSome)
    (h3 : (gamma_channel qPow gamma (qBlue p)).isSome) :
    ∃ v, gamma_rgb qPow gamma p = some v := by
  obtain ⟨r, hr⟩ := Option.isSome_iff_exists.1 h1
  obtain ⟨g, hg⟩ := Option.isSome_iff_exists.1 h2
  obtain ⟨b, hb⟩ := Option.isSome_iff_exists.1 h3
  exact ⟨qRgb r g b, by simp [gamma_rgb, hr, hg, hb]⟩

theorem gamma_rgb_range (qPow : Dbl → Dbl → Option Dbl) (gamma : Dbl) (p v : Nat)
    (h : gamma_rgb qPow gamma p = some v) : 4278190080 ≤ v ∧ v < 4294967296 := by
  unfold gamma_rgb at h
  simp only [Option.bind_eq_bind, Option.bind_eq_some, Option.pure_def, Option.some.injEq] at h
  obtain ⟨r, -, g, -, b, -, rfl⟩ := h
  exact qRgb_range r g b

/-- The pixel that `gamma_correction` leaves in a 32-bit image is the `QRgb` it
computed. -/
theorem rgb32_pixel (qPow : Dbl → Dbl → Option Dbl) (gamma : Dbl) (img : QImage)
    (h32 : img.format.rgb32 = true) (x y : Nat) (hx : x < img.width) (hy : y < img.height)
    (w : Nat) (hw : gamma_word qPow gamma img.format img.colortable (img.pix x y) = some w) :
    gamma_rgb qPow gamma (img.pixel x y)
      = some ((imgUpdate (gamma_word qPow gamma img.format img.colortable) img
          img.height).pixel x y) := by
  obtain ⟨v, hv, rfl⟩ := (gamma_word_some qPow gamma img x y hx hy w).1 hw
  obtain ⟨a, b⟩ := gamma_rgb_range _ _ _ _ hv
  rw [imgUpdate_pixel _ _ _ _ hx hy _ hw, pixelOf_storeOf_rgb32 _ h32 _ _ _ a b, hv]

/-- C1 (amended): for every image of a 32-bit format (`Format_RGB32`,
`Format_ARGB32`, `Format_ARGB32_Premultiplied`), every gamma and every pixel `(x, y)`
inside the image, each colour channel `c` of that pixel is replaced in
`gamma_correction(image, gamma)` by `clamp(0, 255, trunc(z))`, where `trunc` rounds
toward zero (`static_cast<int>`) and `z` is the double `qPow(c / 255.0, gamma) * 255`;
the result has the dimensions of the input, and it is defined whenever every such
`z` is finite and truncates into the range of `int`. -/
theorem gamma_correction_truncates (qPow : Dbl → Dbl → Option Dbl) (image : QImage)
    (gamma : Dbl) (h32 : image.format.rgb32 = true) :
    (∀ out, gamma_correction qPow image gamma = some out →
      out.width = image.width ∧ out.height = image.height ∧
      ∀ x, x < image.width → ∀ y, y < image.height →
        ChannelTruncated qPow gamma (qRed (image.pixel x y)) (qRed (out.pixel x y)) ∧
        ChannelTruncated qPow gamma (qGreen (image.pixel x y)) (qGreen (out.pixel x y)) ∧
        ChannelTruncated qPow gamma (qBlue (image.pixel x y)) (qBlue (out.pixel x y))) ∧
    ((∀ x, x < image.width → ∀ y, y < image.height →
        (gamma_channel qPow gamma (qRed (image.pixel x y))).isSome ∧
        (gamma_channel qPow gamma (qGreen (image.pixel x y))).isSome ∧
        (gamma_channel qPow gamma (qBlue (image.pixel x y))).isSome) →
      ∃ out, gamma_correction qPow image gamma = some out) := by
  constructor
  · intro out h
    obtain ⟨hall, hout⟩ := (gamma_correction_iff qPow image gamma out).1 h
    subst hout
    refine ⟨rfl, rfl, ?_⟩
    intro x hx y hy
    obtain ⟨w, hw⟩ := hall y hy x hx
    obtain ⟨a, b, c, -⟩ := gamma_rgb_some _ _ _ _ (rgb32_pixel qPow gamma image h32 x y hx hy w hw)
    exact ⟨a, b, c⟩
  · intro h
    refine ⟨_, (gamma_correction_iff qPow image gamma _).2 ⟨?_, rfl⟩⟩
    intro y hy x hx
    obtain ⟨a, b, c⟩ := h x hx y hy
    obtain ⟨v, hv⟩ := gamma_rgb_defined _ _ _ a b c
    exact ⟨_, (gamma_word_some qPow gamma image x y hx hy _).2 ⟨v, hv, rfl⟩⟩

set_option maxRecDepth 1000000 in
set_option exponentiation.threshold 2000 in
theorem red200_defined :
    ∀ x, x < image_red200.width → ∀ y, y < image_red200.height →
      (gamma_channel libm_pow_ref Dbl.two (qRed (image_red200.pixel x y))).isSome ∧
      (gamma_channel libm_pow_ref Dbl.two (qGreen (image_red200.pixel x y))).isSome ∧
      (gamma_channel libm_pow_ref Dbl.two (qBlue (image_red200.pixel x y))).isSome := by
  decide

/-- Witness for C1: the 1x1 `Format_ARGB32` image (200, 0, 0) with `gamma = 2.0`. -/
theorem gamma_correction_truncates_witness :
    ∃ out, gamma_correction libm_pow_ref image_red200 Dbl.two = some out ∧
      out.width = 1 ∧
      ChannelTruncated libm_pow_ref Dbl.two (qRed (image_red200.pixel 0 0))
        (qRed (out.pixel 0 0)) := by
  obtain ⟨out, h⟩ := (gamma_correction_truncates libm_pow_ref image_red200 Dbl.two rfl).2
    red200_defined
  obtain ⟨hw, -, hc⟩ := (gamma_correction_truncates libm_pow_ref image_red200 Dbl.two rfl).1 out h
  exact ⟨out, h, hw, (hc 0 (by decide) 0 (by decide)).1⟩

set_option maxRecDepth 1000000 in
set_option exponentiation.threshold 2000 in
theorem red200_value :
    (gamma_correction libm_pow_ref image_red200 Dbl.two).map (fun o => qRed (o.pixel 0 0))
      = some 156 := by
  decide

/-- C1 (counterexample): for the opaque pixel (200, 0, 0) of a `Format_ARGB32`
image and `gamma = 2.0` the code stores red `156` (the truncation of `156.86...`), whereas
`clamp(0, 255, round(255 * (200/255)^2))` is `157`. -/
theorem gamma_correction_rounding_counterexample :
    image_red200.format = QImage.Format.Format_ARGB32 ∧
    ∃ out, gamma_correction libm_pow_ref image_red200 Dbl.two = some out ∧
      Dbl.two.toRat = 2 ∧
      (qRed (out.pixel 0 0) : Int) = 156 ∧
      qBound 0 (round ((255 : ℚ) * ((qRed (image_red200.pixel 0 0) : ℚ) / 255) ^ 2)) 255 = 157 ∧
      (qRed (out.pixel 0 0) : Int)
        ≠ qBound 0 (round ((255 : ℚ) * ((qRed (image_red200.pixel 0 0) : ℚ) / 255) ^ 2)) 255 := by
  have hv := red200_value
  obtain ⟨out, hout, hred⟩ := Option.map_eq_some'.1 hv
  have hspec : qBound 0 (round ((255 : ℚ) * ((qRed (image_red200.pixel 0 0) : ℚ) / 255) ^ 2)) 255
      = 157 := by
    have e : qRed (image_red200.pixel 0 0) = 200 := by decide
    rw [e, round_eq]
    have : ⌊(255 : ℚ) * (((200 : Nat) : ℚ) / 255) ^ 2 + 1 / 2⌋ = 157 := by
      rw [Int.floor_eq_iff]
      constructor <;> norm_num
    rw [this]
    decide
  refine ⟨rfl, out, hout, by norm_num [Dbl.toRat, Dbl.two], by rw [hred]; rfl, hspec, ?_⟩
  rw [hspec, hred]
  decide

/-! ## Claims C2 and C9: gamma = 1.0 -/

theorem libm_pow_ref_one (x : Dbl) : libm_pow_ref x Dbl.one = some x := by
  simp [libm_pow_ref]

/-- A second pass with `gamma = 1.0` changes no pixel, whatever the format: a
palettised image is never written, and a 32-bit pixel is opaque after the first
pass. -/
theorem unit_pixel_twice (qPow : Dbl → Dbl → Option Dbl) (hpow : ∀ x, qPow x Dbl.one = some x)
    (img : QImage) (x y : Nat) (hx : x < img.width) (hy : y < img.height) :
    (imgUpdate (gamma_word qPow Dbl.one img.format img.colortable)
      (imgUpdate (gamma_word qPow Dbl.one img.format img.colortable) img img.height)
      img.height).pixel x y
      = (imgUpdate (gamma_word qPow Dbl.one img.format img.colortable) img img.height).pixel
          x y := by
  rcases format_cases img.format with hidx | h32
  · exact indexed_pixel qPow Dbl.one
      (imgUpdate (gamma_word qPow Dbl.one img.format img.colortable) img img.height) hidx x y hx hy
      _ (gamma_word_one qPow hpow _ _ _)
  · have h2 := unit_pixel qPow hpow
      (imgUpdate (gamma_word qPow Dbl.one img.format img.colortable) img img.height) h32 x y hx hy
    have h1 := unit_pixel qPow hpow img h32 x y hx hy
    obtain ⟨a, b, c, -⟩ := opaque_channels (img.pixel x y)
    rw [h1, a, b, c] at h2
    rw [h1]
    exact h2

/-- C2: `gamma_correction` is idempotent when `gamma == 1.0` (for a C library whose
`pow(x, 1.0)` is `x`): for every image, both applications are defined and
`gamma_correction(gamma_correction(image, 1.0), 1.0)` equals
`gamma_correction(image, 1.0)` pixel for pixel: same width, same height, and the same
`QRgb`, hence the same red, green, blue and alpha, at every coordinate. -/
theorem gamma_correction_idempotent_unit (qPow : Dbl → Dbl → Option Dbl)
    (hpow : ∀ x, qPow x Dbl.one = some x) (image : QImage) :
    ∃ o1 o2, gamma_correction qPow image Dbl.one = some o1 ∧
      gamma_correction qPow o1 Dbl.one = some o2 ∧
      o2.width = o1.width ∧ o2.height = o1.height ∧
      ∀ x, x < o1.width → ∀ y, y < o1.height →
        o2.pixel x y = o1.pixel x y ∧
        qRed (o2.pixel x y) = qRed (o1.pixel x y) ∧
        qGreen (o2.pixel x y) = qGreen (o1.pixel x y) ∧
        qBlue (o2.pixel x y) = qBlue (o1.pixel x y) ∧
        qAlpha (o2.pixel x y) = qAlpha (o1.pixel x y) := by
  refine ⟨_, _, gamma_correction_one qPow hpow image, gamma_correction_one qPow hpow _, rfl, rfl,
    ?_⟩
  intro x hx y hy
  have key := unit_pixel_twice qPow hpow image x y hx hy
  have e : (imgUpdate (gamma_word qPow Dbl.one
        (imgUpdate (gamma_word qPow Dbl.one image.format image.colortable) image
          image.height).format
        (imgUpdate (gamma_word qPow Dbl.one image.format image.colortable) image
          image.height).colortable)
      (imgUpdate (gamma_word qPow Dbl.one image.format image.colortable) image image.height)
      (imgUpdate (gamma_word qPow Dbl.one image.format image.colortable) image
        image.height).height).pixel x y
      = (imgUpdate (gamma_word qPow Dbl.one image.format image.colortable) image
          image.height).pixel x y := key
  rw [e]
  exact ⟨rfl, rfl, rfl, rfl, rfl⟩

/-- Witness for C2: the reference `pow` and a half-transparent 1x1 image. -/
theorem gamma_correction_idempotent_unit_witness :
    ∃ o1 o2, gamma_correction libm_pow_ref image_translucent Dbl.one = some o1 ∧
      gamma_correction libm_pow_ref o1 Dbl.one = some o2 ∧
      o2.width = o1.width ∧ o2.height = o1.height ∧
      ∀ x, x < o1.width → ∀ y, y < o1.height →
        o2.pixel x y = o1.pixel x y ∧
        qRed (o2.pixel x y) = qRed (o1.pixel x y) ∧
        qGreen (o2.pixel x y) = qGreen (o1.pixel x y) ∧
        qBlue (o2.pixel x y) = qBlue (o1.pixel x y) ∧
        qAlpha (o2.pixel x y) = qAlpha (o1.pixel x y) :=
  gamma_correction_idempotent_unit libm_pow_ref libm_pow_ref_one image_translucent

/-- On the 32-bit formats `gamma_correction` with `gamma = 1.0` (and a C library
whose `pow(x, 1.0)` is `x`) does discard transparency: the result is defined, has
the width and height of the input, every pixel keeps its red, green and blue values
and gets alpha 255, and the result equals the input exactly when every input pixel
is fully opaque.  `showImage` stores the result as the label's pixmap and leaves the
image it was given, `m_image`, as it was. -/
theorem gamma_correction_unit_rgb32 (qPow : Dbl → Dbl → Option Dbl)
    (hpow : ∀ x, qPow x Dbl.one = some x) (image : QImage) (h32 : image.format.rgb32 = true) :
    ∃ out, gamma_correction qPow image Dbl.one = some out ∧
      out.width = image.width ∧ out.height = image.height ∧
      (∀ x, x < image.width → ∀ y, y < image.height →
        qRed (out.pixel x y) = qRed (image.pixel x y) ∧
        qGreen (out.pixel x y) = qGreen (image.pixel x y) ∧
        qBlue (out.pixel x y) = qBlue (image.pixel x y) ∧
        qAlpha (out.pixel x y) = 255) ∧
      (image.WellFormed →
        (out.Same image ↔
          ∀ x, x < image.width → ∀ y, y < image.height → qAlpha (image.pixel x y) = 255)) ∧
      (∀ s : ImageViewer, ∃ s1, ImageViewer.showImage qPow { s with m_image := image } image Dbl.one
          = some s1 ∧ s1.m_image = image ∧ s1.labelPixmap = out) := by
  have hlt : image.WellFormed → ∀ x, x < image.width → ∀ y, y < image.height →
      image.pixel x y < 4294967296 := by
    intro hwf x hx y hy
    rw [pixel_eq_pix _ _ _ hx hy]
    have := hwf x y hx hy
    revert h32
    cases image.format <;> simp [QImage.Format.rgb32, QImage.pixelOf] <;> omega
  refine ⟨_, gamma_correction_one qPow hpow image, rfl, rfl, ?_, ?_, ?_⟩
  · intro x hx y hy
    rw [unit_pixel qPow hpow image h32 x y hx hy]
    exact opaque_channels (image.pixel x y)
  · intro hwf
    constructor
    · rintro ⟨-, -, h⟩ x hx y hy
      have := h x y hx hy
      rw [unit_pixel qPow hpow image h32 x y hx hy] at this
      exact (opaque_eq_iff _ (hlt hwf x hx y hy)).1 this
    · intro h
      refine ⟨rfl, rfl, ?_⟩
      intro x y hx hy
      have hx1 : x < image.width := hx
      have hy1 : y < image.height := hy
      rw [unit_pixel qPow hpow image h32 x y hx1 hy1]
      exact (opaque_eq_iff _ (hlt hwf x hx1 y hy1)).2 (h x hx1 y hy1)
  · intro s
    refine ⟨{ s with m_image := image,
                     labelPixmap := imgUpdate (gamma_word qPow Dbl.one image.format
                       image.colortable) image image.height },
      ?_, rfl, rfl⟩
    simp [ImageViewer.showImage, gamma_correction_one qPow hpow image]

/-- On the palettised formats `gamma_correction` changes nothing, whatever the
gamma: where it is defined, the result has every pixel of the input. -/
theorem gamma_correction_indexed (qPow : Dbl → Dbl → Option Dbl) (image : QImage) (gamma : Dbl)
    (hidx : image.format.indexed = true) (out : QImage)
    (h : gamma_correction qPow image gamma = some out) :
    out.Same image := by
  obtain ⟨hall, rfl⟩ := (gamma_correction_iff qPow image gamma out).1 h
  refine ⟨rfl, rfl, ?_⟩
  intro x y hx hy
  obtain ⟨w, hw⟩ := hall y hy x hx
  exact indexed_pixel qPow gamma image hidx x y hx hy w hw

/-- C9 (failing input): the palettised 1x1 image whose colour table holds the
half-transparent colour (200, 100, 50), with `gamma = 1.0`.  Here `gamma_correction`
returns the pixel as it was, alpha 128: the `qRgb` value it passes to `setPixel` is
no index into the colour table and is ignored.  So the alpha is not 255, and the
result equals the input although the input pixel is not opaque. -/
theorem gamma_correction_palettised_keeps_alpha :
    image_palettised.format = QImage.Format.Format_Indexed8 ∧
    qAlpha (image_palettised.pixel 0 0) = 128 ∧
    image_palettised.pixel 0 0 = 2160616498 ∧
    ∃ out, gamma_correction libm_pow_ref image_palettised Dbl.one = some out ∧
      out.pixel 0 0 = image_palettised.pixel 0 0 ∧
      qAlpha (out.pixel 0 0) = 128 ∧
      qAlpha (out.pixel 0 0) ≠ 255 ∧
      out.Same image_palettised ∧
      ¬ (∀ x, x < image_palettised.width → ∀ y, y < image_palettised.height →
          qAlpha (image_palettised.pixel x y) = 255) := by
  have hdef := gamma_correction_one libm_pow_ref libm_pow_ref_one image_palettised
  have hsame := gamma_correction_indexed libm_pow_ref image_palettised Dbl.one rfl _ hdef
  have hp : (imgUpdate (gamma_word libm_pow_ref Dbl.one image_palettised.format
      image_palettised.colortable) image_palettised image_palettised.height).pixel 0 0
      = image_palettised.pixel 0 0 := hsame.2.2 0 0 (by decide) (by decide)
  have ha : qAlpha (image_palettised.pixel 0 0) = 128 := by decide
  refine ⟨rfl, ha, by decide, _, hdef, hp, by rw [hp]; exact ha, by rw [hp, ha]; decide, hsame, ?_⟩
  intro hall
  have := hall 0 (by decide) 0 (by decide)
  rw [ha] at this
  exact absurd this (by decide)

/-! ## Claim C3: scaleImage clamps the slider -/

theorem clampScale_int32 (sl : QAbstractSlider) (scale : Int) (h1 : InIntRange sl.minimum)
    (h2 : InIntRange sl.maximum) : InIntRange (clampScale sl scale) := by
  unfold clampScale InIntRange at *
  omega

theorem clampScale_cases (sl : QAbstractSlider) (scale : Int) (h : sl.minimum ≤ sl.maximum) :
    (sl.minimum ≤ scale ∧ scale ≤ sl.maximum → clampScale sl scale = scale) ∧
    (scale < sl.minimum → clampScale sl scale = sl.minimum) ∧
    (sl.maximum < scale → clampScale sl scale = sl.maximum) ∧
    sl.minimum ≤ clampScale sl scale ∧ clampScale sl scale ≤ sl.maximum := by
  unfold clampScale
  omega

theorem setValue_clampScale (sl : QAbstractSlider) (scale : Int) (h : sl.minimum ≤ sl.maximum) :
    (sl.setValue (clampScale sl scale)).value = clampScale sl scale := by
  unfold QAbstractSlider.setValue qBound clampScale
  simp only
  omega

/-- Whatever `scaleImage` returns has the slider at the bounded scale and the
fit-to-window button unchecked; the members `m_image`, `m_image_size`, `m_pan_mode`,
`m_mouse_down` and the flag are left alone. -/
theorem scaleImage_frame (qPow : Dbl → Dbl → Option Dbl) (s s1 : ImageViewer) (scale : Int)
    (h : scaleImage qPow s scale = some s1) :
    s1.sliderScale = s.sliderScale.setValue (clampScale s.sliderScale scale) ∧
    s1.buttonFitToWindow = false ∧ s1.m_pan_mode = s.m_pan_mode ∧
    s1.m_image_size = s.m_image_size ∧
    s1.m_gamma_instead_of_scaling = s.m_gamma_instead_of_scaling := by
  unfold scaleImage at h
  simp only [Option.bind_eq_bind, Option.bind_eq_some, Option.pure_def, Option.some.injEq] at h
  obtain ⟨sf, -, s2, hs2, fc, -, hb, -, vb, -, rfl⟩ := h
  have key : s2.sliderScale = s.sliderScale.setValue (clampScale s.sliderScale scale) ∧
      s2.buttonFitToWindow = false ∧ s2.m_pan_mode = s.m_pan_mode ∧
      s2.m_image_size = s.m_image_size ∧
      s2.m_gamma_instead_of_scaling = s.m_gamma_instead_of_scaling := by
    split_ifs at hs2 with hg
    · simp only [Option.bind_eq_bind, Option.bind_eq_some, showImage, Option.pure_def,
        Option.some.injEq] at hs2
      obtain ⟨g, -, img, -, rfl⟩ := hs2
      refine ⟨?_, ?_, ?_, ?_, ?_⟩ <;>
        simp only [setNoFitWithoutSignal, setSliderValueWithoutSignal, clampScale] <;>
        split_ifs <;> first | rfl | simp_all
    · simp only [Option.bind_eq_bind, Option.bind_eq_some, Option.pure_def,
        Option.some.injEq] at hs2
      obtain ⟨sz, -, rfl⟩ := hs2
      refine ⟨?_, ?_, ?_, ?_, ?_⟩ <;>
        simp only [setNoFitWithoutSignal, setSliderValueWithoutSignal, setLabelMaximumSize,
          resizeLabel, clampScale] <;>
        split_ifs <;> first | rfl | simp_all
  exact key

theorem prepared_fields (s : ImageViewer) (c : Int) :
    (s.setSliderValueWithoutSignal c).setNoFitWithoutSignal.m_gamma_instead_of_scaling
        = s.m_gamma_instead_of_scaling ∧
    (s.setSliderValueWithoutSignal c).setNoFitWithoutSignal.m_image = s.m_image ∧
    (s.setSliderValueWithoutSignal c).setNoFitWithoutSignal.labelMaximumSize
        = s.labelMaximumSize ∧
    (s.setSliderValueWithoutSignal c).setNoFitWithoutSignal.horizontalScrollBar
        = s.horizontalScrollBar ∧
    (s.setSliderValueWithoutSignal c).setNoFitWithoutSignal.verticalScrollBar
        = s.verticalScrollBar ∧
    (s.setSliderValueWithoutSignal c).setNoFitWithoutSignal.m_image_size = s.m_image_size ∧
    (s.setSliderValueWithoutSignal c).setNoFitWithoutSignal.sliderScale
        = s.sliderScale.setValue c ∧
    (s.setSliderValueWithoutSignal c).setNoFitWithoutSignal.buttonFitToWindow = false := by
  refine ⟨?_, ?_, ?_, ?_, ?_, ?_, ?_, ?_⟩ <;>
    simp only [setNoFitWithoutSignal, setSliderValueWithoutSignal] <;>
    split_ifs <;> first | rfl | simp_all

/-- In gamma mode `scaleImage` is `gamma_correction` of the stored image with the
double nearest to a four-hundredth of the bounded scale; nothing but the slider, the
fit-to-window button and the label's pixmap changes. -/
theorem scaleImage_gamma (qPow : Dbl → Dbl → Option Dbl) (s : ImageViewer) (scale : Int)
    (hflag : s.m_gamma_instead_of_scaling = true)
    (hmin : InIntRange s.sliderScale.minimum) (hmax : InIntRange s.sliderScale.maximum)
    (hW : s.labelMaximumSize.wd ≠ 0)
    (hh : InIntRange s.horizontalScrollBar.value) (hv : InIntRange s.verticalScrollBar.value) :
    ∃ sf g, Dbl.div (Dbl.ofInt (clampScale s.sliderScale scale)) (Dbl.ofInt 100) = some sf ∧
      Dbl.div sf (Dbl.ofInt 4) = some g ∧
      Dbl.div (Dbl.ofInt (clampScale s.sliderScale scale)) (Dbl.ofInt 400) = some g ∧
      scaleImage qPow s scale = (gamma_correction qPow s.m_image g).map (fun img =>
        { (s.setSliderValueWithoutSignal (clampScale s.sliderScale scale)).setNoFitWithoutSignal
          with
            labelPixmap := img,
            horizontalScrollBar := s.horizontalScrollBar.setValue s.horizontalScrollBar.value,
            verticalScrollBar := s.verticalScrollBar.setValue s.verticalScrollBar.value }) := by
  obtain ⟨c1, c2⟩ := clampScale_int32 s.sliderScale scale hmin hmax
  obtain ⟨sf, g, hsf, hg, hg400⟩ := quarter_chain (clampScale s.sliderScale scale) c1 c2
  refine ⟨sf, g, hsf, hg, hg400, ?_⟩
  obtain ⟨f1, f2, f3, f4, f5, -, -, -⟩ := prepared_fields s (clampScale s.sliderScale scale)
  unfold scaleImage
  simp only [Option.bind_eq_bind]
  rw [show min s.sliderScale.maximum (max s.sliderScale.minimum scale)
      = clampScale s.sliderScale scale from rfl, hsf]
  simp only [Option.some_bind, f1, hflag, if_true, hg, f2, showImage, Option.bind_eq_bind]
  cases hgc : gamma_correction qPow s.m_image g with
  | none => simp
  | some img =>
    simp only [Option.some_bind, Option.pure_def, Option.map_some', f3, div_self_ofInt _ hW, f4, f5,
      adjust_scrollbar_one _ hh.1 hh.2, adjust_scrollbar_one _ hv.1 hv.2]

theorem scaleImage_gamma_some (qPow : Dbl → Dbl → Option Dbl) (s s1 : ImageViewer) (scale : Int)
    (hflag : s.m_gamma_instead_of_scaling = true) (h : scaleImage qPow s scale = some s1) :
    ∃ sf g, Dbl.div (Dbl.ofInt (clampScale s.sliderScale scale)) (Dbl.ofInt 100) = some sf ∧
      Dbl.div sf (Dbl.ofInt 4) = some g ∧
      gamma_correction qPow s.m_image g = some s1.labelPixmap ∧
      s1.labelMaximumSize = s.labelMaximumSize := by
  obtain ⟨f1, f2, f3, -, -, -, -, -⟩ := prepared_fields s (clampScale s.sliderScale scale)
  unfold scaleImage at h
  rw [show min s.sliderScale.maximum (max s.sliderScale.minimum scale)
      = clampScale s.sliderScale scale from rfl] at h
  simp only [Option.bind_eq_bind, Option.bind_eq_some, Option.pure_def, Option.some.injEq,
    f1, hflag, if_true, showImage, f2] at h
  obtain ⟨sf, hsf, s2, ⟨g, hg, img, himg, rfl⟩, fc, -, hb, -, vb, -, rfl⟩ := h
  exact ⟨sf, g, hsf, hg, himg, f3⟩

/-- C3: `scaleImage` clamps the requested scale to the slider's range.  For every
integer `scale` and every slider with `minimum ≤ maximum`, after `scaleImage(scale)`
the slider value is `scale` when `minimum ≤ scale ≤ maximum`, `minimum` when
`scale < minimum` and `maximum` when `scale > maximum`, so it lies in
`[minimum, maximum]`; the range itself is unchanged.  In gamma mode the call is
defined whenever the label's maximum width is non-zero and `gamma_correction` is
defined for the stored image. -/
theorem scaleImage_clamps_slider (qPow : Dbl → Dbl → Option Dbl) (s : ImageViewer) (scale : Int)
    (hrange : s.sliderScale.minimum ≤ s.sliderScale.maximum) :
    (∀ s1, scaleImage qPow s scale = some s1 →
      s1.sliderScale.minimum = s.sliderScale.minimum ∧
      s1.sliderScale.maximum = s.sliderScale.maximum ∧
      (s.sliderScale.minimum ≤ scale ∧ scale ≤ s.sliderScale.maximum →
        s1.sliderScale.value = scale) ∧
      (scale < s.sliderScale.minimum → s1.sliderScale.value = s.sliderScale.minimum) ∧
      (s.sliderScale.maximum < scale → s1.sliderScale.value = s.sliderScale.maximum) ∧
      s.sliderScale.minimum ≤ s1.sliderScale.value ∧
      s1.sliderScale.value ≤ s.sliderScale.maximum) ∧
    (s.m_gamma_instead_of_scaling = true →
      InIntRange s.sliderScale.minimum → InIntRange s.sliderScale.maximum →
      s.labelMaximumSize.wd ≠ 0 →
      InIntRange s.horizontalScrollBar.value → InIntRange s.verticalScrollBar.value →
      (∀ g, Dbl.div (Dbl.ofInt (clampScale s.sliderScale scale)) (Dbl.ofInt 400) = some g →
        (gamma_correction qPow s.m_image g).isSome) →
      ∃ s1, scaleImage qPow s scale = some s1) := by
  constructor
  · intro s1 h
    obtain ⟨hs, -⟩ := scaleImage_frame qPow s s1 scale h
    have hv := setValue_clampScale s.sliderScale scale hrange
    obtain ⟨a, b, c, d, e⟩ := clampScale_cases s.sliderScale scale hrange
    rw [hs, hv]
    exact ⟨rfl, rfl, a, b, c, d, e⟩
  · intro hflag hmin hmax hW hh hv hgc
    obtain ⟨sf, g, -, -, hg, h⟩ := scaleImage_gamma qPow s scale hflag hmin hmax hW hh hv
    obtain ⟨img, himg⟩ := Option.isSome_iff_exists.1 (hgc g hg)
    rw [himg] at h
    exact ⟨_, h⟩

set_option maxRecDepth 1000000 in
set_option exponentiation.threshold 2000 in
theorem example_gamma_1000 :
    ∀ g, Dbl.div (Dbl.ofInt (clampScale viewer_example.sliderScale 5000)) (Dbl.ofInt 400) = some g →
      (gamma_correction libm_pow_ref viewer_example.m_image g).isSome := by
  intro g hg
  have h1 : Dbl.div (Dbl.ofInt (clampScale viewer_example.sliderScale 5000)) (Dbl.ofInt 400)
      = some ⟨5629499534213120, -51⟩ := by decide
  rw [h1] at hg
  simp only [Option.some.injEq] at hg
  subst hg
  decide

/-- Witness for C3: the example viewer (slider range 1..1000) asked for scale 5000. -/
theorem scaleImage_clamps_slider_witness :
    ∃ s1, scaleImage libm_pow_ref viewer_example 5000 = some s1 ∧
      s1.sliderScale.value = 1000 := by
  obtain ⟨s1, h⟩ := (scaleImage_clamps_slider libm_pow_ref viewer_example 5000 (by decide)).2
    rfl (by decide) (by decide) (by decide) (by decide) (by decide) example_gamma_1000
  exact ⟨s1, h, ((scaleImage_clamps_slider libm_pow_ref viewer_example 5000 (by decide)).1
    s1 h).2.2.2.2.1 (by decide)⟩

/-! ## Claim C10: gamma mode keeps the view -/

theorem setValue_self (sb : QAbstractSlider) (h : sb.Consistent) : sb.setValue sb.value = sb := by
  obtain ⟨h1, h2, -⟩ := h
  unfold QAbstractSlider.setValue
  rw [qBound_of_mem _ _ _ h1 h2]

/-- C10: in gamma mode (`m_gamma_instead_of_scaling == true`) `scaleImage` never
resizes or scrolls the view.  For every integer `scale` and every viewer state whose
label has a non-zero maximum width, the change factor is exactly `1.0`, and after
`scaleImage(scale)` the label's maximum size and both scroll bars are what they were
before the call; the call is defined whenever `gamma_correction` is. -/
theorem scaleImage_gamma_keeps_view (qPow : Dbl → Dbl → Option Dbl) (s : ImageViewer)
    (scale : Int) (hflag : s.m_gamma_instead_of_scaling = true)
    (hW : s.labelMaximumSize.wd ≠ 0)
    (hmin : InIntRange s.sliderScale.minimum) (hmax : InIntRange s.sliderScale.maximum)
    (hh : s.horizontalScrollBar.Consistent) (hv : s.verticalScrollBar.Consistent) :
    Dbl.div (Dbl.ofInt s.labelMaximumSize.wd) (Dbl.ofInt s.labelMaximumSize.wd) = some Dbl.one ∧
    (∀ s1, scaleImage qPow s scale = some s1 →
      s1.labelMaximumSize = s.labelMaximumSize ∧
      s1.horizontalScrollBar = s.horizontalScrollBar ∧
      s1.verticalScrollBar = s.verticalScrollBar ∧
      s1.horizontalScrollBar.value = s.horizontalScrollBar.value ∧
      s1.verticalScrollBar.value = s.verticalScrollBar.value) ∧
    ((∀ g, Dbl.div (Dbl.ofInt (clampScale s.sliderScale scale)) (Dbl.ofInt 400) = some g →
        (gamma_correction qPow s.m_image g).isSome) →
      ∃ s1, scaleImage qPow s scale = some s1) := by
  obtain ⟨sf, g, -, -, hg, h⟩ := scaleImage_gamma qPow s scale hflag hmin hmax hW hh.2.2 hv.2.2
  obtain ⟨-, -, f3, -, -, -, -, -⟩ := prepared_fields s (clampScale s.sliderScale scale)
  refine ⟨div_self_ofInt _ hW, ?_, ?_⟩
  · intro s1 h1
    rw [h] at h1
    obtain ⟨img, -, rfl⟩ := Option.map_eq_some'.1 h1
    simp only [setValue_self _ hh, setValue_self _ hv, f3]
    exact ⟨trivial, trivial, trivial, trivial, trivial⟩
  · intro hgc
    obtain ⟨img, himg⟩ := Option.isSome_iff_exists.1 (hgc g hg)
    rw [himg] at h
    exact ⟨_, h⟩

/-- Witness for C10: the shrunk example viewer, scrolled to (30, 20), asked for
scale 5000. -/
theorem scaleImage_gamma_keeps_view_witness :
    ∃ s1, scaleImage libm_pow_ref viewer_unfitted 5000 = some s1 ∧
      s1.labelMaximumSize = ⟨150, 75⟩ ∧ s1.horizontalScrollBar.value = 30 ∧
      s1.verticalScrollBar.value = 20 := by
  have key := scaleImage_gamma_keeps_view libm_pow_ref viewer_unfitted 5000 rfl (by decide)
    (by decide) (by decide) (by decide) (by decide)
  obtain ⟨s1, h⟩ := key.2.2 example_gamma_1000
  obtain ⟨a, -, -, b, c⟩ := key.2.1 s1 h
  exact ⟨s1, h, a, b, c⟩

/-! ## Claim C6: the gamma exponent -/

theorem div_100_400 : Dbl.div (Dbl.ofInt 100) (Dbl.ofInt 400) = some Dbl.quarter := by
  apply div_exact _ _ _ (ofInt_m_ne_zero 400 (by norm_num))
  · norm_num [Dbl.Canonical, Dbl.quarter]
  · rw [toRat_ofInt, toRat_ofInt]
    norm_num [Dbl.toRat, Dbl.quarter]

/-- C6: in gamma mode the slider value is mapped to a gamma exponent of one
four-hundredth of the clamped scale.  For every integer `scale`, the exponent
`(scale / 100.0) / 4.0` computed by `scaleImage(scale)` is the double `g` nearest to
`clamp(scale) / 400`, and the displayed pixmap is
`gamma_correction(m_image, g)`; `g` is `1.0` exactly when the clamped scale is `400`,
and the 'original size' button (`scaleImage(100)`, with `100` inside the slider range)
shows the image with gamma `0.25`. -/
theorem scaleImage_gamma_exponent (qPow : Dbl → Dbl → Option Dbl) (s : ImageViewer) (scale : Int)
    (hflag : s.m_gamma_instead_of_scaling = true)
    (hmin : InIntRange s.sliderScale.minimum) (hmax : InIntRange s.sliderScale.maximum) :
    ∃ g, Dbl.div (Dbl.ofInt (clampScale s.sliderScale scale)) (Dbl.ofInt 400) = some g ∧
      (∃ scale_factor,
        Dbl.div (Dbl.ofInt (clampScale s.sliderScale scale)) (Dbl.ofInt 100) = some scale_factor ∧
        Dbl.div scale_factor (Dbl.ofInt 4) = some g) ∧
      (∀ s1, scaleImage qPow s scale = some s1 →
        gamma_correction qPow s.m_image g = some s1.labelPixmap) ∧
      (s.labelMaximumSize.wd ≠ 0 → InIntRange s.horizontalScrollBar.value →
        InIntRange s.verticalScrollBar.value →
        ∀ img, gamma_correction qPow s.m_image g = some img →
          ∃ s1, scaleImage qPow s scale = some s1 ∧ s1.labelPixmap = img) ∧
      (g = Dbl.one ↔ clampScale s.sliderScale scale = 400) ∧
      (s.sliderScale.minimum ≤ 100 ∧ 100 ≤ s.sliderScale.maximum →
        ∀ s1, s.buttonOriginalSize_clicked qPow = some s1 →
          gamma_correction qPow s.m_image Dbl.quarter = some s1.labelPixmap) ∧
      Dbl.one.toRat = 1 ∧ Dbl.quarter.toRat = 1 / 4 := by
  obtain ⟨c1, c2⟩ := clampScale_int32 s.sliderScale scale hmin hmax
  obtain ⟨sf, g, hsf, hg, hg400⟩ := quarter_chain (clampScale s.sliderScale scale) c1 c2
  refine ⟨g, hg400, ⟨sf, hsf, hg⟩, ?_, ?_, ?_, ?_, toRat_one, by norm_num [Dbl.toRat, Dbl.quarter]⟩
  · intro s1 h
    obtain ⟨sf1, g1, a, b, c, -⟩ := scaleImage_gamma_some qPow s s1 scale hflag h
    rw [hsf] at a
    simp only [Option.some.injEq] at a
    subst a
    rw [hg] at b
    simp only [Option.some.injEq] at b
    subst b
    exact c
  · intro hW hh hv img himg
    obtain ⟨sf1, g1, -, -, a, h⟩ := scaleImage_gamma qPow s scale hflag hmin hmax hW hh hv
    rw [hg400] at a
    simp only [Option.some.injEq] at a
    subst a
    rw [himg] at h
    exact ⟨_, h, rfl⟩
  · rw [← div_400_eq_one_iff _ c1 c2, hg400]
    simp only [Option.some.injEq]
  · intro hr s1 h
    unfold ImageViewer.buttonOriginalSize_clicked at h
    obtain ⟨sf1, g1, a, b, c, -⟩ := scaleImage_gamma_some qPow s s1 100 hflag h
    have hc : clampScale s.sliderScale 100 = 100 := by
      unfold clampScale; omega
    rw [hc] at a
    obtain ⟨sf2, g2, a2, b2, c2⟩ := quarter_chain 100 (by norm_num) (by norm_num)
    rw [a2] at a
    simp only [Option.some.injEq] at a
    subst a
    rw [b2] at b
    simp only [Option.some.injEq] at b
    subst b
    rw [div_100_400] at c2
    simp only [Option.some.injEq] at c2
    rw [c2]
    exact c

set_option maxRecDepth 1000000 in
set_option exponentiation.threshold 2000 in
theorem example_gamma_quarter :
    (gamma_correction libm_pow_ref viewer_example.m_image Dbl.quarter).isSome := by
  decide

/-- Witness for C6: the example viewer and its 'original size' button. -/
theorem scaleImage_gamma_exponent_witness :
    ∃ s1, viewer_example.buttonOriginalSize_clicked libm_pow_ref = some s1 ∧
      gamma_correction libm_pow_ref viewer_example.m_image Dbl.quarter = some s1.labelPixmap := by
  obtain ⟨g, h400, -, -, hdef, -, hbtn, -, -⟩ :=
    scaleImage_gamma_exponent libm_pow_ref viewer_example 100 rfl (by decide) (by decide)
  have hc : clampScale viewer_example.sliderScale 100 = 100 := by decide
  rw [hc, div_100_400] at h400
  simp only [Option.some.injEq] at h400
  subst h400
  obtain ⟨img, himg⟩ := Option.isSome_iff_exists.1 example_gamma_quarter
  obtain ⟨s1, hs1, -⟩ := hdef (by decide) (by decide) (by decide) img himg
  exact ⟨s1, hs1, hbtn (by decide) s1 hs1⟩

/-! ## Claim C7: wheel events -/

theorem eventFilter_wheel_eq (qPow : Dbl → Dbl → Option Dbl) (s : ImageViewer) (e : QEvent)
    (hw : e.type = QEvent_Wheel) (h1 : InIntRange (-s.sliderScale.pageStep))
    (h2 : InIntRange (wheelTarget s e)) :
    eventFilter qPow s e = (scaleImage qPow s (wheelTarget s e)).map (fun s1 => (s1, true)) := by
  unfold eventFilter wheelTarget at *
  simp only [hw, if_true]
  by_cases hy : e.angleDelta.yp < 0
  · simp only [hy, if_true] at h2 ⊢
    rw [int_checked_eq _ h1.1 h1.2]
    simp only [Option.bind_eq_bind, Option.some_bind]
    rw [int_checked_eq _ h2.1 h2.2]
    simp only [Option.some_bind]
    cases scaleImage qPow s (s.sliderScale.value + -s.sliderScale.pageStep) <;> rfl
  · simp only [hy, if_false] at h2 ⊢
    simp only [Option.pure_def, Option.bind_eq_bind, Option.some_bind]
    rw [int_checked_eq _ h2.1 h2.2]
    simp only [Option.some_bind]
    cases scaleImage qPow s (s.sliderScale.value + s.sliderScale.pageStep) <;> rfl

theorem eventFilter_wheel_some (qPow : Dbl → Dbl → Option Dbl) (s : ImageViewer) (e : QEvent)
    (hw : e.type = QEvent_Wheel) (r : ImageViewer × Bool) (h : eventFilter qPow s e = some r) :
    r.2 = true ∧ scaleImage qPow s (wheelTarget s e) = some r.1 := by
  unfold eventFilter wheelTarget at *
  simp only [hw, if_true] at h
  by_cases hy : e.angleDelta.yp < 0
  · simp only [hy, if_true, Option.bind_eq_bind, Option.bind_eq_some, Option.pure_def,
      Option.some.injEq] at h ⊢
    obtain ⟨st, hst, tg, htg, s1, hs1, rfl⟩ := h
    obtain ⟨a, -, -⟩ := int_checked_some _ _ hst
    obtain ⟨b, -, -⟩ := int_checked_some _ _ htg
    subst a; subst b
    exact ⟨rfl, hs1⟩
  · simp only [hy, if_false, Option.bind_eq_bind, Option.bind_eq_some, Option.pure_def,
      Option.some.injEq] at h ⊢
    obtain ⟨st, hst, tg, htg, s1, hs1, rfl⟩ := h
    obtain ⟨b, -, -⟩ := int_checked_some _ _ htg
    subst hst; subst b
    exact ⟨rfl, hs1⟩

theorem eventFilter_other_flag (qPow : Dbl → Dbl → Option Dbl) (s : ImageViewer) (e : QEvent)
    (hw : e.type ≠ QEvent_Wheel) (r : ImageViewer × Bool) (h : eventFilter qPow s e = some r) :
    r.2 = false := by
  unfold eventFilter at h
  simp only [hw, if_false] at h
  split_ifs at h <;>
    simp only [Option.bind_eq_bind, Option.bind_eq_some, Option.pure_def, Option.some.injEq] at h
  · obtain ⟨s1, -, rfl⟩ := h; rfl
  · rw [← h]
  · rw [← h]
  · obtain ⟨dx, -, dy, -, s1, -, s2, -, rfl⟩ := h; rfl
  · rw [← h]
  · rw [← h]
  · rw [← h]

theorem eventFilter_other_defined (qPow : Dbl → Dbl → Option Dbl) (s : ImageViewer) (e : QEvent)
    (hw : e.type ≠ QEvent_Wheel)
    (hr : e.type = QEvent_Resize → s.buttonFitToWindow = false)
    (hm : e.type = QEvent_MouseMove → s.m_pan_mode = false ∨ s.buttonFitToWindow = true) :
    ∃ s1, eventFilter qPow s e = some (s1, false) := by
  unfold eventFilter
  simp only [hw, if_false]
  split_ifs with h1 h2 h3 h4 h5 h6
  · exact absurd (hr h2) (by simp [h1])
  · exact ⟨_, rfl⟩
  · exact ⟨_, rfl⟩
  · rcases hm h5.1 with h | h
    · exact absurd h5.2 (by simp [h])
    · exact absurd h h1
  · exact ⟨_, rfl⟩
  · exact ⟨_, rfl⟩
  · exact ⟨_, rfl⟩

/-- C7: every wheel event on the viewport is consumed and steps the scale by one
slider page.  For every viewer state and every wheel event, `eventFilter` returns
`true` and is `scaleImage(value - pageStep)` when `angleDelta().y() < 0` and
`scaleImage(value + pageStep)` otherwise (also for `angleDelta().y() == 0`), so that
afterwards the slider value is that scale clamped to the slider range and the
fit-to-window button is unchecked; the filter is defined whenever the new scale fits
an `int` and `scaleImage` is defined.  For every event that is not a wheel event,
`eventFilter` returns `false`. -/
theorem eventFilter_wheel_steps (qPow : Dbl → Dbl → Option Dbl) (s : ImageViewer) (e : QEvent) :
    (e.type = QEvent_Wheel →
      (e.angleDelta.yp < 0 → wheelTarget s e = s.sliderScale.value - s.sliderScale.pageStep) ∧
      (0 ≤ e.angleDelta.yp → wheelTarget s e = s.sliderScale.value + s.sliderScale.pageStep) ∧
      (∀ r, eventFilter qPow s e = some r →
        r.2 = true ∧ scaleImage qPow s (wheelTarget s e) = some r.1 ∧
        r.1.buttonFitToWindow = false ∧
        (s.sliderScale.minimum ≤ s.sliderScale.maximum →
          r.1.sliderScale.value = clampScale s.sliderScale (wheelTarget s e))) ∧
      (InIntRange (-s.sliderScale.pageStep) → InIntRange (wheelTarget s e) →
        ∀ s1, scaleImage qPow s (wheelTarget s e) = some s1 →
          eventFilter qPow s e = some (s1, true))) ∧
    (e.type ≠ QEvent_Wheel →
      (∀ r, eventFilter qPow s e = some r → r.2 = false) ∧
      ((e.type = QEvent_Resize → s.buttonFitToWindow = false) →
        (e.type = QEvent_MouseMove → s.m_pan_mode = false ∨ s.buttonFitToWindow = true) →
        ∃ s1, eventFilter qPow s e = some (s1, false))) := by
  constructor
  · intro hw
    refine ⟨?_, ?_, ?_, ?_⟩
    · intro hy; unfold wheelTarget; simp only [hy, if_true]; ring
    · intro hy
      have : ¬ e.angleDelta.yp < 0 := by omega
      unfold wheelTarget; simp only [this, if_false]
    · intro r h
      obtain ⟨a, b⟩ := eventFilter_wheel_some qPow s e hw r h
      obtain ⟨c, d, -⟩ := scaleImage_frame qPow s r.1 _ b
      refine ⟨a, b, d, ?_⟩
      intro hrange
      rw [c, setValue_clampScale _ _ hrange]
    · intro h1 h2 s1 hs1
      rw [eventFilter_wheel_eq qPow s e hw h1 h2, hs1]
      rfl
  · intro hw
    exact ⟨eventFilter_other_flag qPow s e hw, eventFilter_other_defined qPow s e hw⟩

theorem example_scale_defined (scale : Int) (g : Dbl)
    (hg : Dbl.div (Dbl.ofInt (clampScale viewer_example.sliderScale scale)) (Dbl.ofInt 400)
      = some g)
    (hgc : (gamma_correction libm_pow_ref viewer_example.m_image g).isSome) :
    ∃ s1, scaleImage libm_pow_ref viewer_example scale = some s1 := by
  obtain ⟨sf, g1, -, -, a, h⟩ := scaleImage_gamma libm_pow_ref viewer_example scale rfl
    (by decide) (by decide) (by decide) (by decide) (by decide)
  rw [hg] at a
  simp only [Option.some.injEq] at a
  subst a
  obtain ⟨img, himg⟩ := Option.isSome_iff_exists.1 hgc
  rw [himg] at h
  exact ⟨_, h⟩

set_option maxRecDepth 1000000 in
set_option exponentiation.threshold 2000 in
theorem example_scale_950 : ∃ s1, scaleImage libm_pow_ref viewer_example 950 = some s1 :=
  example_scale_defined 950 ⟨5348024557502464, -51⟩ (by decide) (by decide)

/-- Witness for C7: the example viewer (value 1000, page step 50) and a wheel event
with a negative angle delta. -/
theorem eventFilter_wheel_steps_witness :
    ∃ s1, eventFilter libm_pow_ref viewer_example wheel_down = some (s1, true) ∧
      s1.sliderScale.value = 950 ∧ s1.buttonFitToWindow = false := by
  obtain ⟨s1, hs1⟩ := example_scale_950
  have key := (eventFilter_wheel_steps libm_pow_ref viewer_example wheel_down).1 rfl
  have ht : wheelTarget viewer_example wheel_down = 950 := by decide
  rw [ht] at key
  have hev := key.2.2.2 (by decide) (by decide) s1 hs1
  obtain ⟨-, -, a, b⟩ := key.2.2.1 _ hev
  exact ⟨s1, hev, by rw [b (by decide)]; decide, a⟩

/-! ## Claim C8: panning -/

theorem runFilter_cons (qPow : Dbl → Dbl → Option Dbl) (s : ImageViewer) (e : QEvent)
    (es : List QEvent) :
    runFilter qPow s (e :: es) = (eventFilter qPow s e).bind (fun r => runFilter qPow r.1 es) := by
  unfold runFilter
  rw [List.foldlM_cons]
  cases eventFilter qPow s e <;> rfl

theorem not_covered_iff (s : ImageViewer) (rect : QSize) :
    s.isQSizeCovered rect = false ↔ (s.viewport.wd < rect.wd ∨ s.viewport.ht < rect.ht) := by
  unfold isQSizeCovered
  simp only [ge_iff_le, Bool.and_eq_false_imp, decide_eq_true_eq, decide_eq_false_iff_not, not_le]
  constructor
  · intro h
    by_cases c : rect.wd ≤ s.viewport.wd
    · exact Or.inr (h c)
    · exact Or.inl (by omega)
  · intro h c
    omega

theorem press_step (qPow : Dbl → Dbl → Option Dbl) (s : ImageViewer) (e : QEvent)
    (hfit : s.buttonFitToWindow = false) (ht : e.type = QEvent_MouseButtonPress)
    (hb : e.button = Qt_LeftButton)
    (hc : s.viewport.wd < s.labelSize.wd ∨ s.viewport.ht < s.labelSize.ht) :
    eventFilter qPow s e = some (pressed s e, false) := by
  have hcov := (not_covered_iff s s.labelSize).2 hc
  unfold eventFilter pressed
  simp [ht, hb, hfit, hcov, QEvent_MouseButtonPress, QEvent_Wheel, QEvent_MouseMove]

theorem scaleToFitWindow_pan (qPow : Dbl → Dbl → Option Dbl) (s s1 : ImageViewer)
    (h : scaleToFitWindow qPow s true = some s1) : s1.m_pan_mode = s.m_pan_mode := by
  unfold scaleToFitWindow at h
  simp only [Bool.not_true, Bool.false_eq_true, if_false, Option.bind_eq_bind,
    Option.bind_eq_some, Option.pure_def, Option.some.injEq] at h
  obtain ⟨q, -, r1, -, v, -, rfl⟩ := h
  rfl

theorem pan_entered (qPow : Dbl → Dbl → Option Dbl) (s : ImageViewer) (e : QEvent)
    (r : ImageViewer × Bool) (hpan : s.m_pan_mode = false)
    (h : eventFilter qPow s e = some r) (hr : r.1.m_pan_mode = true) :
    s.buttonFitToWindow = false ∧ e.type = QEvent_MouseButtonPress ∧ e.button = Qt_LeftButton ∧
      (s.viewport.wd < s.labelSize.wd ∨ s.viewport.ht < s.labelSize.ht) := by
  by_cases hw : e.type = QEvent_Wheel
  · obtain ⟨-, b⟩ := eventFilter_wheel_some qPow s e hw r h
    obtain ⟨-, -, c, -⟩ := scaleImage_frame qPow s r.1 _ b
    rw [c, hpan] at hr
    exact absurd hr (by simp)
  · unfold eventFilter at h
    simp only [hw, if_false] at h
    split_ifs at h with h2 h3 h4 h5 h6 h7 <;>
      simp only [Option.bind_eq_bind, Option.bind_eq_some, Option.pure_def,
        Option.some.injEq] at h
    · obtain ⟨s1, hs1, rfl⟩ := h
      rw [scaleToFitWindow_pan qPow s s1 hs1, hpan] at hr
      exact absurd hr (by simp)
    · rw [← h] at hr; rw [hpan] at hr; exact absurd hr (by simp)
    · refine ⟨by simpa using h2, h5.1, h5.2.1, ?_⟩
      apply (not_covered_iff s s.labelSize).1
      simpa using h5.2.2
    · exact absurd h6.2 (by simp [hpan])
    · rw [← h] at hr; simp at hr
    · rw [← h] at hr; rw [hpan] at hr; exact absurd hr (by simp)
    · rw [← h] at hr; rw [hpan] at hr; exact absurd hr (by simp)

theorem move_some (qPow : Dbl → Dbl → Option Dbl) (s : ImageViewer) (e : QEvent)
    (r : ImageViewer × Bool) (hfit : s.buttonFitToWindow = false) (hpan : s.m_pan_mode = true)
    (ht : e.type = QEvent_MouseMove) (h : eventFilter qPow s e = some r) :
    r.1 = { s with m_mouse_down := e.globalPos,
                   horizontalScrollBar :=
                     dragged s.horizontalScrollBar (e.globalPos.xp - s.m_mouse_down.xp),
                   verticalScrollBar :=
                     dragged s.verticalScrollBar (e.globalPos.yp - s.m_mouse_down.yp) } := by
  cases s
  simp only at hfit hpan
  subst hfit
  subst hpan
  unfold eventFilter at h
  simp only [ht, QEvent_MouseMove, QEvent_Wheel, QEvent_MouseButtonPress,
    Nat.reduceEqDiff, if_false, Bool.false_eq_true, and_true, and_self, if_true,
    Nat.reduceLeDiff, le_refl, false_and] at h
  simp only [Option.bind_eq_bind, Option.bind_eq_some, Option.pure_def, Option.some.injEq] at h
  obtain ⟨dx, hdx, dy, hdy, s1, hs1, s2, hs2, rfl⟩ := h
  obtain ⟨rfl, -, -⟩ := int_checked_some _ _ hdx
  obtain ⟨rfl, -, -⟩ := int_checked_some _ _ hdy
  simp only
  unfold dragged
  split_ifs at hs1 hs2 ⊢ with c1 c2 <;>
    simp only [Option.bind_eq_bind, Option.bind_eq_some, Option.pure_def, Option.some.injEq]
      at hs1 hs2
  · obtain ⟨v1, hv1, rfl⟩ := hs1
    obtain ⟨v2, hv2, rfl⟩ := hs2
    obtain ⟨rfl, -, -⟩ := int_checked_some _ _ hv1
    obtain ⟨rfl, -, -⟩ := int_checked_some _ _ hv2
    rfl
  · obtain ⟨v1, hv1, rfl⟩ := hs1
    obtain ⟨rfl, -, -⟩ := int_checked_some _ _ hv1
    rw [← hs2]
  · obtain ⟨v2, hv2, rfl⟩ := hs2
    obtain ⟨rfl, -, -⟩ := int_checked_some _ _ hv2
    rw [← hs1]
  · rw [← hs2, ← hs1]

theorem move_defined (qPow : Dbl → Dbl → Option Dbl) (s : ImageViewer) (e : QEvent)
    (hfit : s.buttonFitToWindow = false) (hpan : s.m_pan_mode = true)
    (ht : e.type = QEvent_MouseMove)
    (h1 : InIntRange (e.globalPos.xp - s.m_mouse_down.xp))
    (h2 : InIntRange (e.globalPos.yp - s.m_mouse_down.yp))
    (h3 : InIntRange (s.horizontalScrollBar.value - (e.globalPos.xp - s.m_mouse_down.xp)))
    (h4 : InIntRange (s.verticalScrollBar.value - (e.globalPos.yp - s.m_mouse_down.yp))) :
    ∃ r, eventFilter qPow s e = some r := by
  unfold eventFilter
  simp only [ht, hfit, hpan, QEvent_MouseMove, QEvent_Wheel, QEvent_MouseButtonPress,
    Nat.reduceEqDiff, if_false, Bool.false_eq_true, and_true, and_self, if_true,
    Nat.reduceLeDiff, le_refl, false_and]
  rw [int_checked_eq _ h1.1 h1.2, int_checked_eq _ h2.1 h2.2]
  simp only [Option.bind_eq_bind, Option.some_bind]
  split_ifs <;>
    simp only [Option.bind_eq_bind, Option.some_bind, Option.pure_def,
      int_checked_eq _ h3.1 h3.2, int_checked_eq _ h4.1 h4.2] <;>
    exact ⟨_, rfl⟩

theorem dragged_value (sb : QAbstractSlider) (d target : Int) (hv : sb.value - d = target)
    (h1 : sb.minimum ≤ target) (h2 : target ≤ sb.maximum) :
    (dragged sb d).value = target ∧ (dragged sb d).minimum = sb.minimum ∧
      (dragged sb d).maximum = sb.maximum := by
  unfold dragged
  split_ifs with h
  · refine ⟨?_, rfl, rfl⟩
    unfold QAbstractSlider.setValue
    simp only
    rw [hv, qBound_of_mem _ _ _ h1 h2]
  · refine ⟨?_, rfl, rfl⟩
    have : d = 0 := by simpa using h
    omega

theorem pan_run (qPow : Dbl → Dbl → Option Dbl) (p0 : QPoint) (h0 v0 : Int)
    (moves : List QEvent) :
    ∀ s : ImageViewer, s.buttonFitToWindow = false → s.m_pan_mode = true →
      s.horizontalScrollBar.value = h0 - (s.m_mouse_down.xp - p0.xp) →
      s.verticalScrollBar.value = v0 - (s.m_mouse_down.yp - p0.yp) →
      (∀ e ∈ moves, e.type = QEvent_MouseMove) →
      (∀ e ∈ moves, NotCutOff s p0 h0 v0 e.globalPos) →
      ∀ s1, runFilter qPow s moves = some s1 →
        s1.horizontalScrollBar.value = h0 - ((lastPos s.m_mouse_down moves).xp - p0.xp) ∧
        s1.verticalScrollBar.value = v0 - ((lastPos s.m_mouse_down moves).yp - p0.yp) ∧
        s1.m_pan_mode = true := by
  induction moves with
  | nil =>
    intro s _ hpan hh hv _ _ s1 h
    simp only [runFilter, List.foldlM_nil, Option.pure_def, Option.some.injEq] at h
    subst h
    exact ⟨hh, hv, hpan⟩
  | cons e es ih =>
    intro s hfit hpan hh hv ht hc s1 h
    rw [runFilter_cons] at h
    simp only [Option.bind_eq_some] at h
    obtain ⟨r, hr, hrun⟩ := h
    have hm := move_some qPow s e r hfit hpan (ht e (List.mem_cons_self _ _)) hr
    obtain ⟨c1, c2, c3, c4⟩ := hc e (List.mem_cons_self _ _)
    obtain ⟨a1, a2, a3⟩ := dragged_value s.horizontalScrollBar
      (e.globalPos.xp - s.m_mouse_down.xp) (h0 - (e.globalPos.xp - p0.xp)) (by omega) c1 c2
    obtain ⟨b1, b2, b3⟩ := dragged_value s.verticalScrollBar
      (e.globalPos.yp - s.m_mouse_down.yp) (v0 - (e.globalPos.yp - p0.yp)) (by omega) c3 c4
    have key := ih r.1 (by rw [hm]; exact hfit) (by rw [hm]; exact hpan) (by rw [hm]; exact a1) (by rw [hm]; exact b1)
      (fun e1 he1 => ht e1 (List.mem_cons_of_mem _ he1))
      (fun e1 he1 => by
        have := hc e1 (List.mem_cons_of_mem _ he1)
        unfold NotCutOff at this ⊢
        rw [hm]
        simp only [a2, a3, b2, b3]
        exact this)
      s1 hrun
    have hl : lastPos s.m_mouse_down (e :: es) = lastPos r.1.m_mouse_down es := by
      rw [hm]; rfl
    rw [hl]
    exact key

theorem pan_run_defined (qPow : Dbl → Dbl → Option Dbl) (p0 : QPoint) (h0 v0 : Int)
    (moves : List QEvent) :
    ∀ s : ImageViewer, s.buttonFitToWindow = false → s.m_pan_mode = true →
      s.horizontalScrollBar.value = h0 - (s.m_mouse_down.xp - p0.xp) →
      s.verticalScrollBar.value = v0 - (s.m_mouse_down.yp - p0.yp) →
      (∀ e ∈ moves, e.type = QEvent_MouseMove) →
      (∀ e ∈ moves, NotCutOff s p0 h0 v0 e.globalPos) →
      OnScreen s.m_mouse_down → (∀ e ∈ moves, OnScreen e.globalPos) →
      InIntRange s.horizontalScrollBar.minimum → InIntRange s.horizontalScrollBar.maximum →
      InIntRange s.verticalScrollBar.minimum → InIntRange s.verticalScrollBar.maximum →
      ∃ s1, runFilter qPow s moves = some s1 := by
  induction moves with
  | nil =>
    intro s _ _ _ _ _ _ _ _ _ _ _ _
    exact ⟨s, rfl⟩
  | cons e es ih =>
    intro s hfit hpan hh hv ht hc hs hon r1 r2 r3 r4
    obtain ⟨c1, c2, c3, c4⟩ := hc e (List.mem_cons_self _ _)
    have he := hon e (List.mem_cons_self _ _)
    unfold OnScreen at hs he
    unfold InIntRange at r1 r2 r3 r4
    obtain ⟨r, hr⟩ := move_defined qPow s e hfit hpan (ht e (List.mem_cons_self _ _))
      (by unfold InIntRange; omega) (by unfold InIntRange; omega)
      (by unfold InIntRange; omega) (by unfold InIntRange; omega)
    have hm := move_some qPow s e r hfit hpan (ht e (List.mem_cons_self _ _)) hr
    obtain ⟨a1, a2, a3⟩ := dragged_value s.horizontalScrollBar
      (e.globalPos.xp - s.m_mouse_down.xp) (h0 - (e.globalPos.xp - p0.xp)) (by omega) c1 c2
    obtain ⟨b1, b2, b3⟩ := dragged_value s.verticalScrollBar
      (e.globalPos.yp - s.m_mouse_down.yp) (v0 - (e.globalPos.yp - p0.yp)) (by omega) c3 c4
    obtain ⟨s1, hs1⟩ := ih r.1 (by rw [hm]; exact hfit) (by rw [hm]; exact hpan) (by rw [hm]; exact a1)
      (by rw [hm]; exact b1)
      (fun e1 he1 => ht e1 (List.mem_cons_of_mem _ he1))
      (fun e1 he1 => by
        have := hc e1 (List.mem_cons_of_mem _ he1)
        unfold NotCutOff at this ⊢
        rw [hm]
        simp only [a2, a3, b2, b3]
        exact this)
      (by rw [hm]; unfold OnScreen; exact he)
      (fun e1 he1 => hon e1 (List.mem_cons_of_mem _ he1))
      (by rw [hm]; simp only [a2]; exact r1) (by rw [hm]; simp only [a3]; exact r2)
      (by rw [hm]; simp only [b2]; exact r3) (by rw [hm]; simp only [b3]; exact r4)
    refine ⟨s1, ?_⟩
    rw [runFilter_cons, hr]
    exact hs1

theorem release_step (qPow : Dbl → Dbl → Option Dbl) (s : ImageViewer) (e : QEvent)
    (hfit : s.buttonFitToWindow = false) (ht : e.type = QEvent_MouseButtonRelease)
    (hb : e.button = Qt_LeftButton) :
    eventFilter qPow s e = some (released s, false) := by
  unfold eventFilter released
  simp [ht, hb, hfit, QEvent_MouseButtonPress, QEvent_Wheel, QEvent_MouseMove,
    QEvent_MouseButtonRelease]

theorem idle_move (qPow : Dbl → Dbl → Option Dbl) (s : ImageViewer) (e : QEvent)
    (hfit : s.buttonFitToWindow = false) (hpan : s.m_pan_mode = false)
    (ht : e.type = QEvent_MouseMove) :
    eventFilter qPow s e = some (s, false) := by
  unfold eventFilter
  simp [ht, hfit, hpan, QEvent_MouseButtonPress, QEvent_Wheel, QEvent_MouseMove,
    QEvent_MouseButtonRelease]

theorem idle_run (qPow : Dbl → Dbl → Option Dbl) (s : ImageViewer) (moves : List QEvent)
    (hfit : s.buttonFitToWindow = false) (hpan : s.m_pan_mode = false)
    (ht : ∀ e ∈ moves, e.type = QEvent_MouseMove) :
    runFilter qPow s moves = some s := by
  induction moves with
  | nil => rfl
  | cons e es ih =>
    rw [runFilter_cons, idle_move qPow s e hfit hpan (ht e (List.mem_cons_self _ _))]
    exact ih (fun e1 he1 => ht e1 (List.mem_cons_of_mem _ he1))

/-- C8: mouse-drag panning moves the view by exactly the drag displacement.  With
fit-to-window unchecked, (1) pan mode is entered only by a left-button press while the
viewport does not cover the label; (2) for every such press at global position `p0`
followed by any sequence of mouse-move events ending at `pn`, with no value cut off by
a scroll bar range, the horizontal scroll bar value is its value at the press minus
`pn.x - p0.x` and the vertical one its value at the press minus `pn.y - p0.y`, and
the sequence is handled without overflow for positions on a screen; (3) a left-button
release leaves pan mode, after which mouse moves change nothing, in particular no
scroll bar. -/
theorem pan_follows_drag (qPow : Dbl → Dbl → Option Dbl) (s : ImageViewer)
    (hfit : s.buttonFitToWindow = false) :
    (∀ e r, s.m_pan_mode = false → eventFilter qPow s e = some r → r.1.m_pan_mode = true →
      e.type = QEvent_MouseButtonPress ∧ e.button = Qt_LeftButton ∧
        (s.viewport.wd < s.labelSize.wd ∨ s.viewport.ht < s.labelSize.ht)) ∧
    (∀ press moves, press.type = QEvent_MouseButtonPress → press.button = Qt_LeftButton →
      (s.viewport.wd < s.labelSize.wd ∨ s.viewport.ht < s.labelSize.ht) →
      (∀ e ∈ moves, e.type = QEvent_MouseMove) →
      (∀ e ∈ moves, NotCutOff s press.globalPos s.horizontalScrollBar.value
        s.verticalScrollBar.value e.globalPos) →
      (∀ s1, runFilter qPow s (press :: moves) = some s1 →
        s1.horizontalScrollBar.value = s.horizontalScrollBar.value
          - ((lastPos press.globalPos moves).xp - press.globalPos.xp) ∧
        s1.verticalScrollBar.value = s.verticalScrollBar.value
          - ((lastPos press.globalPos moves).yp - press.globalPos.yp) ∧
        s1.m_pan_mode = true) ∧
      (OnScreen press.globalPos → (∀ e ∈ moves, OnScreen e.globalPos) →
        InIntRange s.horizontalScrollBar.minimum → InIntRange s.horizontalScrollBar.maximum →
        InIntRange s.verticalScrollBar.minimum → InIntRange s.verticalScrollBar.maximum →
        ∃ s1, runFilter qPow s (press :: moves) = some s1)) ∧
    (∀ rel moves, rel.type = QEvent_MouseButtonRelease → rel.button = Qt_LeftButton →
      (∀ e ∈ moves, e.type = QEvent_MouseMove) →
      ∃ s2, eventFilter qPow s rel = some (s2, false) ∧ s2.m_pan_mode = false ∧
        s2.horizontalScrollBar = s.horizontalScrollBar ∧
        s2.verticalScrollBar = s.verticalScrollBar ∧
        runFilter qPow s2 moves = some s2) := by
  refine ⟨?_, ?_, ?_⟩
  · intro e r hpan h hr
    exact (pan_entered qPow s e r hpan h hr).2
  · intro press moves ht hb hc hm hcut
    have hp := press_step qPow s press hfit ht hb hc
    have hrun : runFilter qPow s (press :: moves) = runFilter qPow (pressed s press) moves := by
      rw [runFilter_cons, hp]; rfl
    rw [hrun]
    constructor
    · intro s1 h1
      exact pan_run qPow press.globalPos s.horizontalScrollBar.value s.verticalScrollBar.value
        moves (pressed s press) hfit rfl (by simp [pressed]) (by simp [pressed]) hm hcut s1 h1
    · intro o1 o2 r1 r2 r3 r4
      exact pan_run_defined qPow press.globalPos s.horizontalScrollBar.value
        s.verticalScrollBar.value moves (pressed s press) hfit rfl (by simp [pressed])
        (by simp [pressed]) hm hcut o1 o2 r1 r2 r3 r4
  · intro rel moves ht hb hm
    exact ⟨released s, release_step qPow s rel hfit ht hb, rfl, rfl, rfl,
      idle_run qPow (released s) moves hfit rfl hm⟩

/-- Witness for C8: on the example viewer a drag from (100, 100) to (80, 90) scrolls
from (30, 20) to (50, 30). -/
theorem pan_follows_drag_witness :
    ∃ s1, runFilter libm_pow_ref viewer_unfitted (press_at_100 :: moves_to_80_90) = some s1 ∧
      s1.horizontalScrollBar.value = 50 ∧ s1.verticalScrollBar.value = 30 := by
  have key := (pan_follows_drag libm_pow_ref viewer_unfitted rfl).2.1 press_at_100 moves_to_80_90
    rfl rfl (by decide) (by decide) (by decide)
  obtain ⟨s1, h⟩ := key.2 (by decide) (by decide) (by decide) (by decide) (by decide) (by decide)
  obtain ⟨a, b, -⟩ := key.1 s1 h
  exact ⟨s1, h, by rw [a]; decide, by rw [b]; decide⟩

/-! ## Claim C5: zooming into the centre -/

theorem ofInt_normal (i : Int) (h0 : i ≠ 0) (h : i.natAbs < 2 ^ 53) :
    2 ^ 52 ≤ (Dbl.ofInt i).m.natAbs ∧ -52 ≤ (Dbl.ofInt i).e ∧ (Dbl.ofInt i).e ≤ 0 := by
  unfold Dbl.ofInt
  simp only [h0, if_false]
  have hn : i.natAbs ≠ 0 := by omega
  have hb := bitLen_le_of_lt _ _ h
  have hp := bitLen_pos _ hn
  have h2 := bitLen_le i.natAbs hn
  have e1 : (i * ((2 ^ (53 - bitLen i.natAbs) : Nat) : Int)).natAbs
      = i.natAbs * 2 ^ (53 - bitLen i.natAbs) := by
    rw [Int.natAbs_mul, Int.natAbs_ofNat]
  have e3 : 2 ^ 52 = 2 ^ (bitLen i.natAbs - 1) * 2 ^ (53 - bitLen i.natAbs) := by
    rw [← pow_add]; congr 1; omega
  refine ⟨?_, by omega, by omega⟩
  rw [e1, e3]
  exact Nat.mul_le_mul_right _ h2

theorem ofInt_nonneg (i : Int) (h : 0 ≤ i) : (Dbl.ofInt i).nonneg = true := by
  unfold Dbl.nonneg Dbl.ofInt
  split_ifs with h0
  · simp
  · simp only [decide_eq_true_eq]
    positivity

theorem half_step (w : Int) (h0 : 0 ≤ w) (h1 : w ≤ 2147483647) :
    ∃ d, Dbl.add (Dbl.ofInt w) Dbl.half = some d ∧ d.toRat = (w : ℚ) + 1 / 2 := by
  have hi : (2 * w + 1).natAbs < 2 ^ 53 := by omega
  obtain ⟨n1, n2, n3⟩ := ofInt_normal (2 * w + 1) (by omega) hi
  obtain ⟨c1, c2, c3, c4⟩ := canonical_ofInt (2 * w + 1) hi
  have hval : (Dbl.mk (Dbl.ofInt (2 * w + 1)).m ((Dbl.ofInt (2 * w + 1)).e - 1)).toRat
      = (w : ℚ) + 1 / 2 := by
    have := toRat_ofInt (2 * w + 1)
    simp only [Dbl.toRat] at this ⊢
    rw [zpow_sub₀ (by norm_num), ← mul_div_assoc, this]
    push_cast
    ring
  refine ⟨⟨(Dbl.ofInt (2 * w + 1)).m, (Dbl.ofInt (2 * w + 1)).e - 1⟩, ?_, hval⟩
  apply add_exact
  · refine ⟨c1, ?_, ?_, ?_⟩
    · simp only; omega
    · simp only; omega
    · simp only; intro hh; omega
  · rw [hval, toRat_ofInt]
    norm_num [Dbl.toRat, Dbl.half]

theorem truncRat_half (w : Int) (h0 : 0 ≤ w) : truncRat ((w : ℚ) + 1 / 2) = w := by
  unfold truncRat
  have hw : (0 : ℚ) ≤ (w : ℚ) := by exact_mod_cast h0
  rw [if_pos (by linarith), Int.floor_eq_iff]
  constructor <;> linarith

theorem qRound_ofInt (w : Int) (h0 : 0 ≤ w) (h1 : w ≤ 2147483647) :
    qRound (Dbl.ofInt w) = some w := by
  obtain ⟨d, hd, hv⟩ := half_step w h0 h1
  unfold qRound
  rw [if_pos (ofInt_nonneg w h0), hd]
  simp only [Option.bind_eq_bind, Option.some_bind]
  rw [static_cast_int_eq, hv, truncRat_half w h0]
  exact int_checked_eq w (by omega) h1

theorem QSize_mul_one (sz : QSize) (hw : 0 ≤ sz.wd ∧ sz.wd ≤ 2147483647)
    (hh : 0 ≤ sz.ht ∧ sz.ht ≤ 2147483647) : QSize.mul sz Dbl.one = some sz := by
  unfold QSize.mul
  rw [mul_ofInt_one _ (by omega), mul_ofInt_one _ (by omega)]
  simp only [Option.bind_eq_bind, Option.some_bind, qRound_ofInt _ hw.1 hw.2,
    qRound_ofInt _ hh.1 hh.2, Option.pure_def]

/-- The resizing branch of `scaleImage`, which `m_gamma_instead_of_scaling` switches
off, does revert to the image size at scale 100. -/
theorem scaleImage_resize_some (qPow : Dbl → Dbl → Option Dbl) (s s1 : ImageViewer)
    (hflag : s.m_gamma_instead_of_scaling = false)
    (h100 : s.sliderScale.minimum ≤ 100 ∧ 100 ≤ s.sliderScale.maximum)
    (hw : 0 ≤ s.m_image_size.wd ∧ s.m_image_size.wd ≤ QWIDGETSIZE_MAX)
    (hh : 0 ≤ s.m_image_size.ht ∧ s.m_image_size.ht ≤ QWIDGETSIZE_MAX)
    (h : scaleImage qPow s 100 = some s1) :
    s1.labelMaximumSize = s.m_image_size := by
  obtain ⟨f1, -, -, -, -, f6, -, -⟩ := prepared_fields s 100
  have hc : min s.sliderScale.maximum (max s.sliderScale.minimum 100) = 100 := by omega
  unfold QWIDGETSIZE_MAX at hw hh
  unfold scaleImage at h
  rw [hc] at h
  dsimp only at h
  rw [div_self_ofInt 100 (by norm_num)] at h
  simp only [Option.bind_eq_bind, Option.some_bind, f1, hflag, Bool.false_eq_true, if_false,
    f6, QSize_mul_one s.m_image_size ⟨hw.1, by omega⟩ ⟨hh.1, by omega⟩, Option.pure_def,
    Option.bind_eq_some, Option.some.injEq] at h
  obtain ⟨fc, -, hb, -, vb, -, rfl⟩ := h
  simp only [resizeLabel, setLabelMaximumSize, QWIDGETSIZE_MAX]
  cases hs : s.m_image_size with
  | mk w0 h0 =>
    rw [hs] at hw hh
    simp only at hw hh
    simp only [QSize.mk.injEq]
    omega

theorem scaleToFitWindow_false_eq (qPow : Dbl → Dbl → Option Dbl) (s : ImageViewer) :
    scaleToFitWindow qPow s false = scaleImage qPow { s with widgetResizable := false } 100 := by
  unfold scaleToFitWindow
  simp

/-- C4 (failing input): the example viewer, which shows a 2x1 image fitted to a
viewport of 150x100 (label maximum 150x75, slider range 1..1000,
`m_gamma_instead_of_scaling` true as in every state of the program).
`scaleToFitWindow(false)` is defined and keeps the label maximum 150x75; it does not
revert to the image size 2x1, although the comment in `scaleToFitWindow` says that
disabling the fit reverts to the original image size. -/
theorem scaleToFitWindow_false_keeps_label_size :
    viewer_example.m_gamma_instead_of_scaling = true ∧
    viewer_example.sliderScale.minimum ≤ 100 ∧ 100 ≤ viewer_example.sliderScale.maximum ∧
    viewer_example.m_image_size = ⟨viewer_example.m_image.width, viewer_example.m_image.height⟩ ∧
    viewer_example.labelMaximumSize = viewer_example.m_image_size.scaled viewer_example.viewport ∧
    ∃ s1, scaleToFitWindow libm_pow_ref viewer_example false = some s1 ∧
      s1.labelMaximumSize = ⟨150, 75⟩ ∧ s1.m_image_size = ⟨2, 1⟩ ∧
      s1.labelMaximumSize ≠ s1.m_image_size := by
  refine ⟨rfl, by decide, by decide, by decide, by decide, ?_⟩
  obtain ⟨sf, g, -, -, hg, h⟩ := scaleImage_gamma libm_pow_ref
    { viewer_example with widgetResizable := false } 100 rfl
    (by decide) (by decide) (by decide) (by decide) (by decide)
  have hc : clampScale ({ viewer_example with widgetResizable := false } : ImageViewer).sliderScale
      100 = 100 := by decide
  rw [hc, div_100_400] at hg
  simp only [Option.some.injEq] at hg
  subst hg
  obtain ⟨img, himg⟩ := Option.isSome_iff_exists.1 example_gamma_quarter
  have hm : ({ viewer_example with widgetResizable := false } : ImageViewer).m_image
      = viewer_example.m_image := rfl
  rw [hm, himg] at h
  simp only [Option.map_some'] at h
  refine ⟨_, (scaleToFitWindow_false_eq _ _).trans h, rfl, rfl, ?_⟩
  show (⟨150, 75⟩ : QSize) ≠ ⟨2, 1⟩
  decide
